import Mathlib

/-!
Verification development for the reconciliation and archival engine of
backup-cosense (`src/backup_cosense`).

The Python source is shallowly embedded: filesystem paths are modelled as
canonical strings (so `pathlib.Path.resolve`, which only canonicalizes, is the
identity), Python `set[pathlib.Path]` becomes `Finset String`, raised
exceptions become `Except`, and the `aiohttp` network boundary becomes an
explicit `remote : String → RemoteResult` oracle together with a counter of
issued GET requests.  Regex matching (`re.match`) is kept abstract as a
boolean parameter `rmatch : String → String → Bool` (pattern, text), since the
claims under study quantify over "matches a pattern" rather than over regex
internals.
-/

set_option maxRecDepth 4000

deriving instance DecidableEq for Except

namespace BackupCosense

/-! ## CommitTarget (`_utility.py`) -/

/-- One entry of the error message list built by `CommitTarget.validate`:
`f'"{path}" exists in both "{set1}" and "{set2}"'`. -/
def pairMessage (p s1 s2 : String) : String :=
  "\"" ++ p ++ "\" exists in both \"" ++ s1 ++ "\" and \"" ++ s2 ++ "\""

/-- `CommitTarget` (`_utility.py` line 12): three sets of canonical absolute
paths. -/
structure CommitTarget where
  added : Finset String
  updated : Finset String
  deleted : Finset String
deriving DecidableEq

/-- The set of error messages collected by `CommitTarget.validate`
(`_utility.py` lines 27-35): one message per path per overlapping pair of
categories, the pairs being enumerated by
`itertools.combinations(["added", "updated", "deleted"], 2)`.
The Python code joins them into one exception string; the model keeps the set
of messages as the error payload. -/
def CommitTarget.validateErrors (t : CommitTarget) : Finset String :=
  ((t.added ∩ t.updated).image (fun p => pairMessage p "added" "updated")) ∪
    ((t.added ∩ t.deleted).image (fun p => pairMessage p "added" "deleted")) ∪
    ((t.updated ∩ t.deleted).image (fun p => pairMessage p "updated" "deleted"))

/-- `CommitTarget.validate`: raises `CommitTargetError` iff the collected
error list is nonempty. -/
def CommitTarget.validate (t : CommitTarget) : Except (Finset String) Unit :=
  if t.validateErrors = ∅ then Except.ok () else Except.error t.validateErrors

/-- Construction of a `CommitTarget` (`__post_init__`): normalize
(`Path.resolve`, the identity on our canonical-path model) then validate. -/
def CommitTarget.mk' (added updated deleted : Finset String) :
    Except (Finset String) CommitTarget :=
  let t : CommitTarget := ⟨added, updated, deleted⟩
  match t.validate with
  | Except.ok _ => Except.ok t
  | Except.error e => Except.error e

/-- `CommitTarget.update` (`_utility.py` lines 37-42): the receiver's three
sets are unioned with `other`'s *before* `validate` runs, so the first
component (the post-call state of the mutated receiver) is the union even when
validation fails; the second component is the call's result. -/
def CommitTarget.update (self other : CommitTarget) :
    CommitTarget × Except (Finset String) CommitTarget :=
  let s : CommitTarget :=
    ⟨self.added ∪ other.added, self.updated ∪ other.updated,
      self.deleted ∪ other.deleted⟩
  match s.validate with
  | Except.ok _ => (s, Except.ok s)
  | Except.error e => (s, Except.error e)

/-- `CommitTarget.is_empty`. -/
def CommitTarget.is_empty (t : CommitTarget) : Bool :=
  decide (t.added = ∅ ∧ t.updated = ∅ ∧ t.deleted = ∅)

theorem validateErrors_eq_empty_iff (t : CommitTarget) :
    t.validateErrors = ∅ ↔
      t.added ∩ t.updated = ∅ ∧ t.added ∩ t.deleted = ∅ ∧
        t.updated ∩ t.deleted = ∅ := by
  simp only [CommitTarget.validateErrors, Finset.union_eq_empty,
    Finset.image_eq_empty, and_assoc]

theorem mem_validateErrors_of_overlap (t : CommitTarget) (p : String)
    (hp : p ∈ (t.added ∩ t.updated) ∪ (t.added ∩ t.deleted) ∪
      (t.updated ∩ t.deleted)) :
    ∃ m ∈ t.validateErrors,
      m = pairMessage p "added" "updated" ∨ m = pairMessage p "added" "deleted" ∨
        m = pairMessage p "updated" "deleted" := by
  rcases Finset.mem_union.mp hp with hp' | hin
  · rcases Finset.mem_union.mp hp' with hin | hin
    · exact ⟨pairMessage p "added" "updated",
        Finset.mem_union.mpr (Or.inl (Finset.mem_union.mpr
          (Or.inl (Finset.mem_image_of_mem _ hin)))), Or.inl rfl⟩
    · exact ⟨pairMessage p "added" "deleted",
        Finset.mem_union.mpr (Or.inl (Finset.mem_union.mpr
          (Or.inr (Finset.mem_image_of_mem _ hin)))), Or.inr (Or.inl rfl)⟩
  · exact ⟨pairMessage p "updated" "deleted",
      Finset.mem_union.mpr (Or.inr (Finset.mem_image_of_mem _ hin)),
      Or.inr (Or.inr rfl)⟩

/-- Claim C1: for every `CommitTarget` the three path sets are pairwise
disjoint after construction and after every merge; constructing a
`CommitTarget` whose categories overlap, or merging two `CommitTarget`s whose
union overlaps, raises a `CommitTargetError` whose message list names every
path appearing in more than one category. -/
theorem commitTarget_disjoint_invariant :
    (∀ a u d t, CommitTarget.mk' a u d = Except.ok t →
      t.added ∩ t.updated = ∅ ∧ t.added ∩ t.deleted = ∅ ∧
        t.updated ∩ t.deleted = ∅) ∧
    (∀ t₁ t₂ t : CommitTarget, (t₁.update t₂).2 = Except.ok t →
      t.added ∩ t.updated = ∅ ∧ t.added ∩ t.deleted = ∅ ∧
        t.updated ∩ t.deleted = ∅) ∧
    (∀ a u d, ¬(a ∩ u = ∅ ∧ a ∩ d = ∅ ∧ u ∩ d = ∅) →
      ∃ e, CommitTarget.mk' a u d = Except.error e ∧
        ∀ p, p ∈ (a ∩ u) ∪ (a ∩ d) ∪ (u ∩ d) →
          ∃ m ∈ e, m = pairMessage p "added" "updated" ∨
            m = pairMessage p "added" "deleted" ∨
            m = pairMessage p "updated" "deleted") ∧
    (∀ t₁ t₂ : CommitTarget,
      ¬((t₁.added ∪ t₂.added) ∩ (t₁.updated ∪ t₂.updated) = ∅ ∧
        (t₁.added ∪ t₂.added) ∩ (t₁.deleted ∪ t₂.deleted) = ∅ ∧
        (t₁.updated ∪ t₂.updated) ∩ (t₁.deleted ∪ t₂.deleted) = ∅) →
      ∃ e, (t₁.update t₂).2 = Except.error e ∧
        ∀ p, p ∈ ((t₁.added ∪ t₂.added) ∩ (t₁.updated ∪ t₂.updated)) ∪
            ((t₁.added ∪ t₂.added) ∩ (t₁.deleted ∪ t₂.deleted)) ∪
            ((t₁.updated ∪ t₂.updated) ∩ (t₁.deleted ∪ t₂.deleted)) →
          ∃ m ∈ e, m = pairMessage p "added" "updated" ∨
            m = pairMessage p "added" "deleted" ∨
            m = pairMessage p "updated" "deleted") := by
  refine ⟨?_, ?_, ?_, ?_⟩
  · intro a u d t h
    unfold CommitTarget.mk' CommitTarget.validate at h
    by_cases he : CommitTarget.validateErrors ⟨a, u, d⟩ = ∅
    · simp only [he, if_pos rfl] at h
      cases h
      exact (validateErrors_eq_empty_iff _).mp he
    · simp only [if_neg he] at h
      cases h
  · intro t₁ t₂ t h
    unfold CommitTarget.update CommitTarget.validate at h
    by_cases he : CommitTarget.validateErrors
        ⟨t₁.added ∪ t₂.added, t₁.updated ∪ t₂.updated, t₁.deleted ∪ t₂.deleted⟩ = ∅
    · simp only [he, if_pos rfl] at h
      cases h
      exact (validateErrors_eq_empty_iff _).mp he
    · simp only [if_neg he] at h
      cases h
  · intro a u d h
    have he : ¬CommitTarget.validateErrors ⟨a, u, d⟩ = ∅ := by
      intro hc
      exact h ((validateErrors_eq_empty_iff _).mp hc)
    refine ⟨CommitTarget.validateErrors ⟨a, u, d⟩, ?_, ?_⟩
    · unfold CommitTarget.mk' CommitTarget.validate
      simp only [if_neg he]
    · intro p hp
      exact mem_validateErrors_of_overlap ⟨a, u, d⟩ p hp
  · intro t₁ t₂ h
    have he : ¬CommitTarget.validateErrors
        ⟨t₁.added ∪ t₂.added, t₁.updated ∪ t₂.updated,
          t₁.deleted ∪ t₂.deleted⟩ = ∅ := by
      intro hc
      exact h ((validateErrors_eq_empty_iff _).mp hc)
    refine ⟨CommitTarget.validateErrors
      ⟨t₁.added ∪ t₂.added, t₁.updated ∪ t₂.updated, t₁.deleted ∪ t₂.deleted⟩,
        ?_, ?_⟩
    · unfold CommitTarget.update CommitTarget.validate
      simp only [if_neg he]
    · intro p hp
      exact mem_validateErrors_of_overlap _ p hp

/-- Witness for C1: a concrete valid construction and a concrete overlapping
construction exercising `commitTarget_disjoint_invariant`. -/
theorem commitTarget_disjoint_invariant_witness :
    ({"x"} : Finset String) ∩ {"x"} = ∅ → False := by
  intro hc
  have h := commitTarget_disjoint_invariant.2.2.1 {"x"} {"x"} ∅
    (by
      intro hand
      have := hand.1
      simp at this)
  rcases h with ⟨e, _, _⟩
  simp at hc

/-- Claim C10: `CommitTarget.update` is not atomic — when the category unions
overlap the call raises, but the receiver has already been mutated to the
union of each category, and that state is not rolled back. -/
theorem commitTarget_update_not_atomic (t₁ t₂ : CommitTarget)
    (h : ¬((t₁.added ∪ t₂.added) ∩ (t₁.updated ∪ t₂.updated) = ∅ ∧
        (t₁.added ∪ t₂.added) ∩ (t₁.deleted ∪ t₂.deleted) = ∅ ∧
        (t₁.updated ∪ t₂.updated) ∩ (t₁.deleted ∪ t₂.deleted) = ∅)) :
    (∃ e, (t₁.update t₂).2 = Except.error e) ∧
      (t₁.update t₂).1.added = t₁.added ∪ t₂.added ∧
      (t₁.update t₂).1.updated = t₁.updated ∪ t₂.updated ∧
      (t₁.update t₂).1.deleted = t₁.deleted ∪ t₂.deleted := by
  have he : ¬CommitTarget.validateErrors
      ⟨t₁.added ∪ t₂.added, t₁.updated ∪ t₂.updated,
        t₁.deleted ∪ t₂.deleted⟩ = ∅ := by
    intro hc
    exact h ((validateErrors_eq_empty_iff _).mp hc)
  unfold CommitTarget.update CommitTarget.validate
  simp only [if_neg he]
  exact ⟨⟨_, rfl⟩, by trivial, by trivial, by trivial⟩

/-- Witness for C10: merging `⟨{"p"}, ∅, ∅⟩` into `⟨∅, {"p"}, ∅⟩` raises while
leaving the receiver holding `"p"` in both `added` and `updated`. -/
theorem commitTarget_update_not_atomic_witness :
    (∃ e, ((⟨{"p"}, ∅, ∅⟩ : CommitTarget).update ⟨∅, {"p"}, ∅⟩).2 =
        Except.error e) ∧
      ((⟨{"p"}, ∅, ∅⟩ : CommitTarget).update ⟨∅, {"p"}, ∅⟩).1.added =
        ({"p"} ∪ ∅ : Finset String) ∧
      ((⟨{"p"}, ∅, ∅⟩ : CommitTarget).update ⟨∅, {"p"}, ∅⟩).1.updated =
        (∅ ∪ {"p"} : Finset String) ∧
      ((⟨{"p"}, ∅, ∅⟩ : CommitTarget).update ⟨∅, {"p"}, ∅⟩).1.deleted =
        (∅ ∪ ∅ : Finset String) := by
  exact commitTarget_update_not_atomic ⟨{"p"}, ∅, ∅⟩ ⟨∅, {"p"}, ∅⟩
    (by
      intro hand
      have := hand.1
      simp at this)

/-! ## Filename escaping (`_backup.py`, `_escape_filename`) -/

/-- The per-character substitution table of `_escape_filename`
(`_backup.py` lines 438-445); characters outside the table are unchanged. -/
def escapeChar (c : Char) : String :=
  if c = ' ' then "_"
  else if c = '#' then "%23"
  else if c = '%' then "%25"
  else if c = '/' then "%2F"
  else String.singleton c

/-- `_escape_filename`: `str.translate` applies the substitution to every
character independently. -/
def escapeFilename (s : String) : String :=
  String.join (s.data.map escapeChar)

theorem join_append (l₁ l₂ : List String) :
    String.join (l₁ ++ l₂) = String.join l₁ ++ String.join l₂ := by
  rw [String.join_eq (l₁ ++ l₂), String.join_eq l₁, String.join_eq l₂]
  show String.mk ((List.map String.data (l₁ ++ l₂)).flatten) =
    String.mk ((List.map String.data l₁).flatten ++ (List.map String.data l₂).flatten)
  exact congrArg String.mk (by simp)

theorem escapeFilename_append (s t : String) :
    escapeFilename (s ++ t) = escapeFilename s ++ escapeFilename t := by
  unfold escapeFilename
  rw [String.data_append, List.map_append, join_append]

/-- Claim C9, counterexample: a title containing the literal text `%23` does
*not* escape to the same filename as the title with `#` in its place, because
`%` is itself escaped to `%25` first. -/
theorem escapeFilename_no_percent23_collision :
    ¬(escapeFilename "a%23b" = escapeFilename "a#b") := by
  decide

/-- Claim C9 (amended): the filename-escaping function is the fixed
substitution space → `_`, `#` → `%23`, `%` → `%25`, `/` → `%2F` (applied
characterwise, so it distributes over concatenation and leaves other
characters unchanged), and it is not collision-free on titles: a title
containing a literal `_` escapes to the same filename as the otherwise
identical title containing a space in its place — although the claimed
`%23`/`#` collision does not occur. -/
theorem escapeFilename_substitution_and_collision :
    escapeFilename " " = "_" ∧ escapeFilename "#" = "%23" ∧
      escapeFilename "%" = "%25" ∧ escapeFilename "/" = "%2F" ∧
      (∀ s t, escapeFilename (s ++ t) = escapeFilename s ++ escapeFilename t) ∧
      (∀ c : Char, c ≠ ' ' → c ≠ '#' → c ≠ '%' → c ≠ '/' →
        escapeFilename (String.singleton c) = String.singleton c) ∧
      (("a b" : String) ≠ "a_b" ∧ escapeFilename "a b" = escapeFilename "a_b") := by
  refine ⟨by decide, by decide, by decide, by decide, escapeFilename_append,
    ?_, by decide, by decide⟩
  intro c h1 h2 h3 h4
  show String.join [escapeChar c] = String.singleton c
  simp [String.join, escapeChar, h1, h2, h3, h4]

/-- Witness for the amended C9 theorem: the unchanged-character clause at the
concrete character `a`. -/
theorem escapeFilename_substitution_and_collision_witness :
    escapeFilename (String.singleton 'a') = String.singleton 'a' :=
  escapeFilename_substitution_and_collision.2.2.2.2.2.1 'a'
    (by decide) (by decide) (by decide) (by decide)

/-! ## Association-list model of Python dicts

Python dicts preserve insertion order; re-assigning an existing key keeps its
position.  Both `_diff_pages` and `_classify_external_links` build such dicts,
so we model them as association lists with a replace-or-append insert. -/

/-- One step of a Python dict comprehension `{key(a): mk(a) for a in l}`:
replace the value in place when the key is present, append otherwise. -/
def dictInsert {α β : Type} (key : α → String) (mk : α → β)
    (acc : List (String × β)) (a : α) : List (String × β) :=
  if acc.any (fun q => q.1 == key a) then
    acc.map (fun q => if q.1 == key a then (q.1, mk a) else q)
  else acc ++ [(key a, mk a)]

/-- `{key(a): mk(a) for a in l}` as an association list. -/
def dictOf {α β : Type} (key : α → String) (mk : α → β) (l : List α) :
    List (String × β) :=
  l.foldl (dictInsert key mk) []

theorem foldl_dictInsert_fresh {α β : Type} (key : α → String) (mk : α → β)
    (l : List α) (acc : List (String × β))
    (hfresh : ∀ a ∈ l, ∀ q ∈ acc, q.1 ≠ key a)
    (hnd : (l.map key).Nodup) :
    l.foldl (dictInsert key mk) acc = acc ++ l.map (fun a => (key a, mk a)) := by
  induction l generalizing acc with
  | nil => simp
  | cons a as ih =>
    have hany : (acc.any (fun q => q.1 == key a)) = false := by
      rw [List.any_eq_false]
      intro q hq
      simpa using hfresh a (List.mem_cons_self a as) q hq
    have hkey : key a ∉ as.map key := by
      have := hnd
      rw [List.map_cons, List.nodup_cons] at this
      exact this.1
    rw [List.foldl_cons]
    rw [show dictInsert key mk acc a = acc ++ [(key a, mk a)] by
      unfold dictInsert
      rw [hany]
      simp]
    rw [ih (acc ++ [(key a, mk a)]) ?_ ?_]
    · simp
    · intro b hb q hq
      rcases List.mem_append.mp hq with h | h
      · exact hfresh b (List.mem_cons_of_mem _ hb) q h
      · have hq' : q = (key a, mk a) := by simpa using h
        subst hq'
        intro hc
        have hc' : key a = key b := hc
        exact hkey (hc' ▸ List.mem_map_of_mem key hb)
    · exact (List.map_cons key a as ▸ hnd).of_cons

/-- `dict.values()` change caused by deleting one key: with pairwise-distinct
keys, `eraseP` on a key is the same as filtering that key out. -/
theorem eraseP_key_eq_filter {β : Type} (t : String)
    (rem : List (String × β)) (hnd : (rem.map Prod.fst).Nodup) :
    rem.eraseP (fun r => r.1 == t) = rem.filter (fun r => !(r.1 == t)) := by
  induction rem with
  | nil => rfl
  | cons r rs ih =>
    rw [List.map_cons, List.nodup_cons] at hnd
    by_cases hr : r.1 = t
    · simp only [List.eraseP_cons, List.filter_cons, hr, beq_self_eq_true,
        cond_true, Bool.not_true, Bool.false_eq_true, if_false]
      symm
      rw [List.filter_eq_self]
      intro q hq
      have hq' : q.1 ≠ t := by
        intro hc
        exact hnd.1 (by
          have hmem : q.1 ∈ rs.map Prod.fst := List.mem_map_of_mem Prod.fst hq
          rw [hc, ← hr] at hmem
          exact hmem)
      simp [hq']
    · have hpred : (r.1 == t) = false := by simp [hr]
      simp only [List.eraseP_cons, List.filter_cons, hpred, cond_false,
        Bool.not_false, if_true]
      rw [ih hnd.2]

theorem find?_filter_of_ne {β : Type} (t t' : String) (h : t' ≠ t)
    (rem : List (String × β)) :
    (rem.filter (fun r => !(r.1 == t))).find? (fun r => r.1 == t') =
      rem.find? (fun r => r.1 == t') := by
  induction rem with
  | nil => rfl
  | cons r rs ih =>
    by_cases hr : r.1 = t
    · have hne : t ≠ t' := Ne.symm h
      have h1 : (!(r.1 == t)) = false := by simp [hr]
      have h2 : (r.1 == t') = false := by simp [hr, hne]
      rw [List.filter_cons, h1, if_neg (by simp : ¬(false = true)),
        List.find?_cons, h2, ih]
    · have h1 : (!(r.1 == t)) = true := by simp [hr]
      rw [List.filter_cons, h1, if_pos rfl, List.find?_cons, List.find?_cons]
      cases hr' : (r.1 == t') with
      | true => rfl
      | false => exact ih

theorem all_filter_of_ne {β : Type} (t t' : String) (h : t' ≠ t)
    (rem : List (String × β)) :
    (rem.filter (fun r => !(r.1 == t))).all (fun q => !(q.1 == t')) =
      rem.all (fun q => !(q.1 == t')) := by
  induction rem with
  | nil => rfl
  | cons r rs ih =>
    by_cases hr : r.1 = t
    · have hne : t ≠ t' := Ne.symm h
      have h1 : (!(r.1 == t)) = false := by simp [hr]
      have h2 : (!(r.1 == t')) = true := by simp [hr, hne]
      rw [List.filter_cons, h1, if_neg (by simp : ¬(false = true)),
        List.all_cons, h2, Bool.true_and, ih]
    · have h1 : (!(r.1 == t)) = true := by simp [hr]
      rw [List.filter_cons, h1, if_pos rfl, List.all_cons, List.all_cons, ih]

/-! ## Diff engine (`_backup.py`, `_diff_pages`) -/

/-- `BackupPageJSON`: title, created/updated timestamps and body lines (the
fields relevant to the diff; comparison in the source is full structural
equality of the page dict, modelled by `DecidableEq` on this structure). -/
structure BackupPage where
  title : String
  created : Nat
  updated : Nat
  lines : List String
deriving DecidableEq

structure PagesDiff where
  added : List BackupPage
  updated : List BackupPage
  deleted : List BackupPage
deriving DecidableEq

/-- The key used by `_diff_pages`: the filename-escaped title. -/
def pageKey (p : BackupPage) : String := escapeFilename p.title

/-- The body of the `for page in current.pages` loop of `_diff_pages`:
state is (added so far, updated so far, remaining previous-page dict). -/
def diffStep (acc : List BackupPage × List BackupPage × List (String × BackupPage))
    (p : BackupPage) :
    List BackupPage × List BackupPage × List (String × BackupPage) :=
  match acc.2.2.find? (fun q => q.1 == pageKey p) with
  | none => (acc.1 ++ [p], acc.2.1, acc.2.2)
  | some q => (acc.1, if p = q.2 then acc.2.1 else acc.2.1 ++ [p],
      acc.2.2.eraseP (fun r => r.1 == pageKey p))

/-- `_diff_pages` (`_backup.py` lines 579-602). -/
def diffPages (current : List BackupPage) (previous : Option (List BackupPage)) :
    PagesDiff :=
  match previous with
  | none => ⟨current, [], []⟩
  | some prev =>
    let res := current.foldl diffStep ([], [], dictOf pageKey id prev)
    ⟨res.1, res.2.1, res.2.2.map (fun q => q.2)⟩

/-- Added iff no remaining previous entry shares the key. -/
def diffAddedPred (rem : List (String × BackupPage)) (p : BackupPage) : Bool :=
  rem.all (fun q => !(q.1 == pageKey p))

/-- Updated iff a previous entry shares the key and differs structurally. -/
def diffUpdatedPick (rem : List (String × BackupPage)) (p : BackupPage) :
    Option BackupPage :=
  match rem.find? (fun q => q.1 == pageKey p) with
  | some q => if p = q.2 then none else some p
  | none => none

/-- Deleted iff no current page shares the key. -/
def diffRemainPred (cur : List BackupPage) (q : String × BackupPage) : Bool :=
  cur.all (fun p => !(q.1 == pageKey p))

theorem diff_foldl_characterization (cur : List BackupPage)
    (ad up : List BackupPage) (rem : List (String × BackupPage))
    (hrem : (rem.map Prod.fst).Nodup) (hcur : (cur.map pageKey).Nodup) :
    cur.foldl diffStep (ad, up, rem) =
      (ad ++ cur.filter (diffAddedPred rem),
       up ++ cur.filterMap (diffUpdatedPick rem),
       rem.filter (diffRemainPred cur)) := by
  induction cur generalizing ad up rem with
  | nil =>
    simp only [List.foldl_nil, List.filter_nil, List.filterMap_nil,
      List.append_nil]
    refine Prod.ext rfl (Prod.ext rfl ?_)
    show rem = rem.filter (diffRemainPred [])
    symm
    rw [List.filter_eq_self]
    intro q _
    rfl
  | cons p ps ih =>
    rw [List.map_cons, List.nodup_cons] at hcur
    cases hfind : rem.find? (fun q => q.1 == pageKey p) with
    | none =>
      have hstep : diffStep (ad, up, rem) p = (ad ++ [p], up, rem) := by
        simp [diffStep, hfind]
      rw [List.foldl_cons, hstep, ih (ad ++ [p]) up rem hrem hcur.2]
      have hall : diffAddedPred rem p = true := by
        unfold diffAddedPred
        rw [List.all_eq_true]
        intro q hq
        have := List.find?_eq_none.mp hfind q hq
        simpa using this
      have hpick : diffUpdatedPick rem p = none := by
        unfold diffUpdatedPick
        rw [hfind]
      refine Prod.ext ?_ (Prod.ext ?_ ?_)
      · show ad ++ [p] ++ ps.filter (diffAddedPred rem) =
          ad ++ (p :: ps).filter (diffAddedPred rem)
        rw [List.filter_cons, hall]
        simp
      · show up ++ ps.filterMap (diffUpdatedPick rem) =
          up ++ (p :: ps).filterMap (diffUpdatedPick rem)
        rw [List.filterMap_cons, hpick]
      · show rem.filter (diffRemainPred ps) = rem.filter (diffRemainPred (p :: ps))
        refine (List.filter_congr ?_).symm
        intro q hq
        unfold diffRemainPred
        rw [List.all_cons]
        have hqp : (!(q.1 == pageKey p)) = true := by
          have := List.find?_eq_none.mp hfind q hq
          simpa using this
        rw [hqp, Bool.true_and]
    | some q0 =>
      have hq0mem : q0 ∈ rem := List.mem_of_find?_eq_some hfind
      have hq0key : q0.1 = pageKey p := by
        have := List.find?_some hfind
        simpa using this
      have hstep : diffStep (ad, up, rem) p =
          (ad, if p = q0.2 then up else up ++ [p],
            rem.eraseP (fun r => r.1 == pageKey p)) := by
        simp [diffStep, hfind]
      rw [List.foldl_cons, hstep, eraseP_key_eq_filter (pageKey p) rem hrem]
      have hrem' : ((rem.filter (fun r => !(r.1 == pageKey p))).map Prod.fst).Nodup :=
        ((List.filter_sublist rem).map Prod.fst).nodup hrem
      rw [ih _ _ _ hrem' hcur.2]
      have hkeyne : ∀ p' ∈ ps, pageKey p' ≠ pageKey p := by
        intro p' hp' hc
        exact hcur.1 (hc ▸ List.mem_map_of_mem pageKey hp')
      have hpickp : diffUpdatedPick rem p =
          (if p = q0.2 then none else some p) := by
        unfold diffUpdatedPick
        rw [hfind]
      have haddp : diffAddedPred rem p = false := by
        unfold diffAddedPred
        rw [List.all_eq_false]
        exact ⟨q0, hq0mem, by simp [hq0key]⟩
      refine Prod.ext ?_ (Prod.ext ?_ ?_)
      · show ad ++ ps.filter (diffAddedPred (rem.filter _)) =
          ad ++ (p :: ps).filter (diffAddedPred rem)
        rw [List.filter_cons, haddp]
        simp only [Bool.false_eq_true, if_false]
        congr 1
        refine List.filter_congr ?_
        intro p' hp'
        unfold diffAddedPred
        exact all_filter_of_ne (pageKey p) (pageKey p') (hkeyne p' hp') rem
      · show (if p = q0.2 then up else up ++ [p]) ++
            ps.filterMap (diffUpdatedPick (rem.filter _)) =
          up ++ (p :: ps).filterMap (diffUpdatedPick rem)
        rw [List.filterMap_cons, hpickp]
        have hcong : ps.filterMap (diffUpdatedPick
            (rem.filter (fun r => !(r.1 == pageKey p)))) =
            ps.filterMap (diffUpdatedPick rem) := by
          refine List.filterMap_congr ?_
          intro p' hp'
          unfold diffUpdatedPick
          rw [find?_filter_of_ne (pageKey p) (pageKey p') (hkeyne p' hp') rem]
        rw [hcong]
        by_cases hpq : p = q0.2
        · rw [if_pos hpq, if_pos hpq]
        · rw [if_neg hpq, if_neg hpq]
          simp
      · show (rem.filter (fun r => !(r.1 == pageKey p))).filter (diffRemainPred ps) =
          rem.filter (diffRemainPred (p :: ps))
        rw [List.filter_filter]
        refine List.filter_congr ?_
        intro q hq
        unfold diffRemainPred
        rw [List.all_cons, Bool.and_comm]

/-- The previous-side dict built by `_diff_pages` when escaped titles are
pairwise distinct. -/
theorem dictOf_pages (prev : List BackupPage)
    (hprev : (prev.map pageKey).Nodup) :
    dictOf pageKey id prev = prev.map (fun q => (pageKey q, q)) := by
  unfold dictOf
  rw [foldl_dictInsert_fresh pageKey id prev [] (by intro a _ q hq; cases hq) hprev]
  rfl

theorem diffUpdatedPick_some {rem : List (String × BackupPage)}
    {x p : BackupPage} (h : diffUpdatedPick rem x = some p) : x = p := by
  unfold diffUpdatedPick at h
  split at h
  · split at h
    · exact absurd h (by simp)
    · exact Option.some.inj h
  · exact absurd h (by simp)

theorem find?_pages_map (prev : List BackupPage) (t : String) (q : BackupPage)
    (hq : q ∈ prev) (hkey : pageKey q = t)
    (hprev : (prev.map pageKey).Nodup) :
    (prev.map (fun r => (pageKey r, r))).find? (fun r => r.1 == t) =
      some (pageKey q, q) := by
  induction prev with
  | nil => cases hq
  | cons r rs ih =>
    rw [List.map_cons, List.nodup_cons] at hprev
    rcases List.mem_cons.mp hq with hq' | hq'
    · subst hq'
      rw [List.map_cons, List.find?_cons]
      have : (pageKey q == t) = true := by simp [hkey]
      rw [this]
    · have hrne : pageKey r ≠ t := by
        intro hc
        exact hprev.1 (by
          have : pageKey q ∈ rs.map pageKey := List.mem_map_of_mem pageKey hq'
          rw [hkey, ← hc] at this
          exact this)
      rw [List.map_cons, List.find?_cons]
      have : (pageKey r == t) = false := by simp [hrne]
      rw [this]
      exact ih hq' hprev.2

/-- Claim C8: for `_diff_pages` over two snapshots with pairwise-distinct
escaped titles on each side, keying both sides by the filename-escaped title:
a key only on the current side is added, a key on both sides is updated
exactly when the two pages are not structurally equal, and a key only on the
previous side is deleted. -/
theorem diffPages_classification (current prev : List BackupPage)
    (hcur : (current.map pageKey).Nodup) (hprev : (prev.map pageKey).Nodup) :
    (∀ p ∈ current, (∀ q ∈ prev, pageKey q ≠ pageKey p) →
      p ∈ (diffPages current (some prev)).added) ∧
    (∀ p ∈ current, ∀ q ∈ prev, pageKey q = pageKey p →
      (p ∈ (diffPages current (some prev)).updated ↔ p ≠ q)) ∧
    (∀ q ∈ prev, (∀ p ∈ current, pageKey p ≠ pageKey q) →
      q ∈ (diffPages current (some prev)).deleted) := by
  have hd : diffPages current (some prev) =
      ⟨current.filter (diffAddedPred (prev.map (fun q => (pageKey q, q)))),
       current.filterMap (diffUpdatedPick (prev.map (fun q => (pageKey q, q)))),
       ((prev.map (fun q => (pageKey q, q))).filter
          (diffRemainPred current)).map (fun q => q.2)⟩ := by
    have hstep : diffPages current (some prev) =
        ⟨(current.foldl diffStep ([], [], dictOf pageKey id prev)).1,
         (current.foldl diffStep ([], [], dictOf pageKey id prev)).2.1,
         (current.foldl diffStep ([], [], dictOf pageKey id prev)).2.2.map
           (fun q => q.2)⟩ := rfl
    rw [hstep, dictOf_pages prev hprev]
    rw [diff_foldl_characterization current [] []
      (prev.map (fun q => (pageKey q, q)))
      (by
        rw [List.map_map]
        exact hprev)
      hcur]
    simp
  rw [hd]
  refine ⟨?_, ?_, ?_⟩
  · intro p hp hkeys
    rw [List.mem_filter]
    refine ⟨hp, ?_⟩
    unfold diffAddedPred
    rw [List.all_eq_true]
    intro q hq
    rcases List.mem_map.mp hq with ⟨r, hr, hrq⟩
    subst hrq
    simpa using hkeys r hr
  · intro p hp q hq hkey
    have hfind : (prev.map (fun r => (pageKey r, r))).find?
        (fun r => r.1 == pageKey p) = some (pageKey q, q) :=
      find?_pages_map prev (pageKey p) q hq hkey hprev
    have hpick : diffUpdatedPick (prev.map (fun r => (pageKey r, r))) p =
        (if p = q then none else some p) := by
      unfold diffUpdatedPick
      rw [hfind]
    constructor
    · intro hmem
      rcases List.mem_filterMap.mp hmem with ⟨x, hx, hpx⟩
      have hxp : x = p := diffUpdatedPick_some hpx
      subst hxp
      intro hpq
      subst hpq
      rw [hpick, if_pos rfl] at hpx
      cases hpx
    · intro hne
      rw [List.mem_filterMap]
      exact ⟨p, hp, by rw [hpick, if_neg hne]⟩
  · intro q hq hkeys
    rw [List.mem_map]
    refine ⟨(pageKey q, q), ?_, rfl⟩
    rw [List.mem_filter]
    refine ⟨List.mem_map_of_mem _ hq, ?_⟩
    unfold diffRemainPred
    rw [List.all_eq_true]
    intro p hp
    have hne : pageKey q ≠ pageKey p := fun hc => hkeys p hp hc.symm
    simpa using hne

/-- Witness for C8 at concrete snapshots: page `b` changed only in its body
lines (same `updated` timestamp) is classified updated; a fresh page is added;
a dropped page is deleted. -/
theorem diffPages_classification_witness :
    (⟨"a", 0, 0, []⟩ : BackupPage) ∈
        (diffPages [⟨"a", 0, 0, []⟩, ⟨"b", 1, 5, ["new"]⟩]
          (some [⟨"b", 1, 5, ["old"]⟩, ⟨"c", 2, 2, []⟩])).added ∧
      ((⟨"b", 1, 5, ["new"]⟩ : BackupPage) ∈
          (diffPages [⟨"a", 0, 0, []⟩, ⟨"b", 1, 5, ["new"]⟩]
            (some [⟨"b", 1, 5, ["old"]⟩, ⟨"c", 2, 2, []⟩])).updated ↔
        (⟨"b", 1, 5, ["new"]⟩ : BackupPage) ≠ ⟨"b", 1, 5, ["old"]⟩) ∧
      (⟨"c", 2, 2, []⟩ : BackupPage) ∈
        (diffPages [⟨"a", 0, 0, []⟩, ⟨"b", 1, 5, ["new"]⟩]
          (some [⟨"b", 1, 5, ["old"]⟩, ⟨"c", 2, 2, []⟩])).deleted := by
  have h := diffPages_classification
    [⟨"a", 0, 0, []⟩, ⟨"b", 1, 5, ["new"]⟩]
    [⟨"b", 1, 5, ["old"]⟩, ⟨"c", 2, 2, []⟩]
    (by decide) (by decide)
  refine ⟨?_, ?_, ?_⟩
  · exact h.1 ⟨"a", 0, 0, []⟩ (by decide) (by decide)
  · exact h.2.1 ⟨"b", 1, 5, ["new"]⟩ (by decide) ⟨"b", 1, 5, ["old"]⟩
      (by decide) (by decide)
  · exact h.2.2 ⟨"c", 2, 2, []⟩ (by decide) (by decide)

/-! ## External link data model (`_backup.py` / `_external_link.py`) -/

/-- `Location`: where a url was found (document title + line number). -/
structure Location where
  title : String
  line : Nat
deriving DecidableEq

/-- `ExternalLink`: url plus the locations where it occurs. -/
structure ExternalLink where
  url : String
  locations : List Location
deriving DecidableEq

/-- `ResponseLog`: HTTP status code and content type of a received response. -/
structure ResponseLog where
  status_code : Int
  content_type : Option String
deriving DecidableEq

/-- `RequestError`: exception class name and message of a failed request. -/
structure RequestError where
  error_type : String
  message : String
deriving DecidableEq

/-- The `response` field of `ExternalLinkLog`:
`RequestError | ResponseLog | Literal["excluded"]`. -/
inductive LinkResponse where
  | responseLog : ResponseLog → LinkResponse
  | requestError : RequestError → LinkResponse
  | excluded : LinkResponse
deriving DecidableEq

/-- `ExternalLinkLog`: persisted outcome for one url in one archival run. -/
structure ExternalLinkLog where
  url : String
  locations : List Location
  access_timestamp : Nat
  response : LinkResponse
  is_saved : Bool
deriving DecidableEq

/-- The `link` property of `ExternalLinkLog`. -/
def ExternalLinkLog.link (log : ExternalLinkLog) : ExternalLink :=
  ⟨log.url, log.locations⟩

/-- `_LinkLogPair`. -/
structure LinkLogPair where
  link : Option ExternalLink := none
  log : Option ExternalLinkLog := none
deriving DecidableEq

/-- `_ClassifiedExternalLinks`. -/
structure ClassifiedExternalLinks where
  new_links : List ExternalLink
  logs : List ExternalLinkLog
  deleted_links : List ExternalLinkLog
deriving DecidableEq

/-! ## Link classifier (`_classify_external_links`) -/

/-- The `for log in previous_logs` loop of `_classify_external_links`: attach
the log to an existing pair of the same url, else append a log-only pair. -/
def overlayLog (acc : List (String × LinkLogPair)) (log : ExternalLinkLog) :
    List (String × LinkLogPair) :=
  if acc.any (fun q => q.1 == log.url) then
    acc.map (fun q =>
      if q.1 == log.url then (q.1, { q.2 with log := some log }) else q)
  else acc ++ [(log.url, { log := some log })]

/-- The url-keyed pair dict of `_classify_external_links`: seeded from
`links`, overlaid with `previous_logs`. -/
def classifyPairs (links : List ExternalLink)
    (previous_logs : List ExternalLinkLog) : List (String × LinkLogPair) :=
  previous_logs.foldl overlayLog
    (dictOf (fun l => l.url) (fun l => { link := some l }) links)

/-- The classification loop body of `_classify_external_links`. -/
def classifyStep (acc : ClassifiedExternalLinks) (q : String × LinkLogPair) :
    ClassifiedExternalLinks :=
  match q.2.log with
  | none =>
    match q.2.link with
    | some l => { acc with new_links := acc.new_links ++ [l] }
    | none => acc
  | some log =>
    match q.2.link with
    | none => { acc with deleted_links := acc.deleted_links ++ [log] }
    | some l =>
      { acc with logs := acc.logs ++ [{ log with locations := l.locations }] }

/-- `_classify_external_links` (`_external_link.py` lines 448-479). -/
def classifyExternalLinks (links : List ExternalLink)
    (previous_logs : List ExternalLinkLog) : ClassifiedExternalLinks :=
  (classifyPairs links previous_logs).foldl classifyStep ⟨[], [], []⟩

def pickNew (q : String × LinkLogPair) : Option ExternalLink :=
  match q.2.log, q.2.link with
  | none, some l => some l
  | _, _ => none

def pickCarried (q : String × LinkLogPair) : Option ExternalLinkLog :=
  match q.2.log, q.2.link with
  | some g, some l => some { g with locations := l.locations }
  | _, _ => none

def pickDeleted (q : String × LinkLogPair) : Option ExternalLinkLog :=
  match q.2.log, q.2.link with
  | some g, none => some g
  | _, _ => none

theorem classify_foldl (pairs : List (String × LinkLogPair))
    (a : List ExternalLink) (b c : List ExternalLinkLog) :
    pairs.foldl classifyStep ⟨a, b, c⟩ =
      ⟨a ++ pairs.filterMap pickNew, b ++ pairs.filterMap pickCarried,
        c ++ pairs.filterMap pickDeleted⟩ := by
  induction pairs generalizing a b c with
  | nil => simp
  | cons q qs ih =>
    rw [List.foldl_cons]
    cases hlog : q.2.log with
    | none =>
      cases hlink : q.2.link with
      | none =>
        have hstep : classifyStep ⟨a, b, c⟩ q = ⟨a, b, c⟩ := by
          unfold classifyStep
          rw [hlog, hlink]
        rw [hstep, ih]
        simp [pickNew, pickCarried, pickDeleted, hlog, hlink]
      | some l =>
        have hstep : classifyStep ⟨a, b, c⟩ q = ⟨a ++ [l], b, c⟩ := by
          unfold classifyStep
          rw [hlog, hlink]
        rw [hstep, ih]
        simp [pickNew, pickCarried, pickDeleted, hlog, hlink]
    | some g =>
      cases hlink : q.2.link with
      | none =>
        have hstep : classifyStep ⟨a, b, c⟩ q = ⟨a, b, c ++ [g]⟩ := by
          unfold classifyStep
          rw [hlog, hlink]
        rw [hstep, ih]
        simp [pickNew, pickCarried, pickDeleted, hlog, hlink]
      | some l =>
        have hstep : classifyStep ⟨a, b, c⟩ q =
            ⟨a, b ++ [{ g with locations := l.locations }], c⟩ := by
          unfold classifyStep
          rw [hlog, hlink]
        rw [hstep, ih]
        simp [pickNew, pickCarried, pickDeleted, hlog, hlink]

/-- How a seeded pair ends up after the overlay loop: its log is the unique
previous log of the same url, if any. -/
def overlayUpdate (logs : List ExternalLinkLog) (q : String × LinkLogPair) :
    String × LinkLogPair :=
  match logs.find? (fun g => g.url == q.1) with
  | some g => (q.1, { q.2 with log := some g })
  | none => q

theorem overlayUpdate_none {logs : List ExternalLinkLog}
    {q : String × LinkLogPair}
    (h : logs.find? (fun g => g.url == q.1) = none) :
    overlayUpdate logs q = q := by
  unfold overlayUpdate
  rw [h]

theorem overlayUpdate_some {logs : List ExternalLinkLog}
    {q : String × LinkLogPair} {g : ExternalLinkLog}
    (h : logs.find? (fun g' => g'.url == q.1) = some g) :
    overlayUpdate logs q = (q.1, { q.2 with log := some g }) := by
  unfold overlayUpdate
  rw [h]

/-- The in-place update done by `overlayLog` on a single dict entry. -/
def updOne (g : ExternalLinkLog) (q : String × LinkLogPair) :
    String × LinkLogPair :=
  if q.1 == g.url then (q.1, { q.2 with log := some g }) else q

theorem updOne_fst (g : ExternalLinkLog) (q : String × LinkLogPair) :
    (updOne g q).1 = q.1 := by
  unfold updOne
  split
  · rfl
  · rfl

theorem list_all_map {α β : Type} (f : α → β) (l : List α) (p : β → Bool) :
    (l.map f).all p = l.all (fun a => p (f a)) := by
  induction l with
  | nil => rfl
  | cons a as ih => rw [List.map_cons, List.all_cons, List.all_cons, ih]

theorem list_all_congr {α : Type} {l : List α} {p q : α → Bool}
    (h : ∀ a ∈ l, p a = q a) : l.all p = l.all q := by
  induction l with
  | nil => rfl
  | cons a as ih =>
    rw [List.all_cons, List.all_cons, h a (List.mem_cons_self a as),
      ih (fun b hb => h b (List.mem_cons_of_mem a hb))]

theorem overlay_foldl (logs : List ExternalLinkLog)
    (acc : List (String × LinkLogPair))
    (hacc : (acc.map Prod.fst).Nodup)
    (hnd : (logs.map (fun g => g.url)).Nodup) :
    logs.foldl overlayLog acc =
      acc.map (overlayUpdate logs) ++
        (logs.filter (fun g => acc.all (fun q => !(q.1 == g.url)))).map
          (fun g => (g.url, { link := none, log := some g })) := by
  induction logs generalizing acc with
  | nil =>
    have hid : overlayUpdate ([] : List ExternalLinkLog) = id := by
      funext q
      rfl
    simp [hid]
  | cons g gs ih =>
    rw [List.map_cons, List.nodup_cons] at hnd
    rw [List.foldl_cons]
    cases hmem : acc.any (fun q => q.1 == g.url) with
    | true =>
      have hstep : overlayLog acc g = acc.map (updOne g) := by
        unfold overlayLog updOne
        rw [hmem]
        simp
      have hkeys : (acc.map (updOne g)).map Prod.fst = acc.map Prod.fst := by
        rw [List.map_map]
        exact List.map_congr_left (fun q _ => updOne_fst g q)
      rw [hstep, ih _ (by rw [hkeys]; exact hacc) hnd.2]
      congr 1
      · rw [List.map_map]
        refine List.map_congr_left ?_
        intro q _
        show overlayUpdate gs (updOne g q) = overlayUpdate (g :: gs) q
        by_cases hq1 : q.1 = g.url
        · have h1 : updOne g q = (q.1, { q.2 with log := some g }) := by
            unfold updOne
            rw [if_pos (by simp [hq1])]
          have hgs : gs.find? (fun g' => g'.url == q.1) = none := by
            rw [List.find?_eq_none]
            intro g' hg'
            have hne : ¬g'.url = q.1 := by
              intro hc
              have hm : g'.url ∈ gs.map (fun g => g.url) :=
                List.mem_map_of_mem _ hg'
              rw [hc, hq1] at hm
              exact hnd.1 hm
            simp [hne]
          have hcons : (g :: gs).find? (fun g' => g'.url == q.1) = some g := by
            rw [List.find?_cons]
            have ht : (g.url == q.1) = true := by simp [hq1]
            rw [ht]
          have h2 : overlayUpdate gs (q.1, { q.2 with log := some g }) =
              (q.1, { q.2 with log := some g }) := overlayUpdate_none hgs
          rw [h1, h2, overlayUpdate_some hcons]
        · have h1 : updOne g q = q := by
            unfold updOne
            rw [if_neg (by simp [hq1])]
          have hconseq : (g :: gs).find? (fun g' => g'.url == q.1) =
              gs.find? (fun g' => g'.url == q.1) := by
            rw [List.find?_cons]
            have hne : (g.url == q.1) = false := by
              have h2 : ¬g.url = q.1 := fun hc => hq1 hc.symm
              simp [h2]
            rw [hne]
          rw [h1]
          unfold overlayUpdate
          rw [hconseq]
      · rw [List.filter_cons]
        have hg : (acc.all fun q => !(q.1 == g.url)) = false := by
          rw [List.all_eq_false]
          rcases List.any_eq_true.mp hmem with ⟨q, hq, hq'⟩
          exact ⟨q, hq, by simpa using hq'⟩
        rw [hg]
        simp only [Bool.false_eq_true, if_false]
        refine congrArg _ (List.filter_congr ?_)
        intro g' _
        rw [List.all_map]
        refine list_all_congr ?_
        intro q _
        show (!((updOne g q).1 == g'.url)) = (!(q.1 == g'.url))
        rw [updOne_fst]
    | false =>
      have hfresh : ∀ q ∈ acc, ¬q.1 = g.url := by
        intro q hq
        have h1 := List.any_eq_false.mp hmem q hq
        simpa using h1
      have hstep : overlayLog acc g =
          acc ++ [(g.url, ({ link := none, log := some g } : LinkLogPair))] := by
        unfold overlayLog
        rw [hmem]
        simp
      have hknew : (((acc ++
          [(g.url, ({ link := none, log := some g } : LinkLogPair))]).map
            Prod.fst)).Nodup := by
        rw [List.map_append]
        refine List.Nodup.append hacc (by simp) ?_
        intro x hx hx'
        have hx2 : x = g.url := by simpa using hx'
        subst hx2
        rcases List.mem_map.mp hx with ⟨q, hq, hq'⟩
        exact hfresh q hq hq'
      rw [hstep, ih _ hknew hnd.2, List.map_append, List.append_assoc]
      congr 1
      · refine List.map_congr_left ?_
        intro q hq
        have hconseq : (g :: gs).find? (fun g' => g'.url == q.1) =
            gs.find? (fun g' => g'.url == q.1) := by
          rw [List.find?_cons]
          have hne : (g.url == q.1) = false := by
            have h2 : ¬g.url = q.1 := fun hc => hfresh q hq hc.symm
            simp [h2]
          rw [hne]
        unfold overlayUpdate
        rw [hconseq]
      · rw [List.filter_cons]
        have hgtrue : (acc.all fun q => !(q.1 == g.url)) = true := by
          rw [List.all_eq_true]
          intro q hq
          have h1 := hfresh q hq
          simp [h1]
        rw [hgtrue, if_pos rfl, List.map_cons, List.map_cons, List.map_nil]
        have hupd : overlayUpdate gs
            (g.url, ({ link := none, log := some g } : LinkLogPair)) =
            (g.url, ({ link := none, log := some g } : LinkLogPair)) := by
          refine overlayUpdate_none ?_
          rw [List.find?_eq_none]
          intro g' hg'
          have hne : ¬g'.url = g.url := by
            intro hc
            have hm : g'.url ∈ gs.map (fun g => g.url) :=
              List.mem_map_of_mem _ hg'
            rw [hc] at hm
            exact hnd.1 hm
          simp [hne]
        rw [hupd, List.singleton_append]
        congr 1
        refine congrArg _ (List.filter_congr ?_)
        intro g' hg'
        rw [List.all_append]
        have hone : ([(g.url, ({ link := none, log := some g } : LinkLogPair))].all
            fun q => !(q.1 == g'.url)) = true := by
          have hne : ¬g.url = g'.url := by
            intro hc
            have hm : g'.url ∈ gs.map (fun g => g.url) :=
              List.mem_map_of_mem _ hg'
            rw [← hc] at hm
            exact hnd.1 hm
          simp [hne]
        rw [hone, Bool.and_true]

/-- Outcome of classification for a url present in `links`: new when no
previous log shares the url. -/
def pickNewLink (logs : List ExternalLinkLog) (l : ExternalLink) :
    Option ExternalLink :=
  match logs.find? (fun g => g.url == l.url) with
  | some _ => none
  | none => some l

/-- Outcome of classification for a url present in `links`: carried (with
locations replaced) when a previous log shares the url. -/
def pickCarriedLog (logs : List ExternalLinkLog) (l : ExternalLink) :
    Option ExternalLinkLog :=
  match logs.find? (fun g => g.url == l.url) with
  | some g => some { g with locations := l.locations }
  | none => none

theorem classifyPairs_eq (links : List ExternalLink)
    (logs : List ExternalLinkLog)
    (h1 : (links.map (fun l => l.url)).Nodup)
    (h2 : (logs.map (fun g => g.url)).Nodup) :
    classifyPairs links logs =
      (links.map (fun l =>
        (l.url, ({ link := some l, log := none } : LinkLogPair)))).map
          (overlayUpdate logs) ++
        (logs.filter (fun g => links.all (fun l => !(l.url == g.url)))).map
          (fun g => (g.url, { link := none, log := some g })) := by
  unfold classifyPairs dictOf
  rw [foldl_dictInsert_fresh (fun l => l.url)
    (fun l => ({ link := some l, log := none } : LinkLogPair))
    links [] (by intro a _ q hq; cases hq) h1]
  rw [List.nil_append]
  rw [overlay_foldl logs _ (by rw [List.map_map]; exact h1) h2]
  congr 1
  refine congrArg _ (List.filter_congr ?_)
  intro g _
  rw [list_all_map]

theorem pickNewLink_some {logs : List ExternalLinkLog} {l y : ExternalLink}
    (h : pickNewLink logs l = some y) :
    y = l ∧ logs.find? (fun g => g.url == l.url) = none := by
  unfold pickNewLink at h
  cases hf : logs.find? (fun g => g.url == l.url) with
  | some g =>
    rw [hf] at h
    cases h
  | none =>
    rw [hf] at h
    exact ⟨(Option.some.inj h).symm, rfl⟩

theorem pickCarriedLog_some {logs : List ExternalLinkLog} {l : ExternalLink}
    {r : ExternalLinkLog} (h : pickCarriedLog logs l = some r) :
    r.url = l.url ∧ r.locations = l.locations ∧
      ∃ g ∈ logs, g.url = l.url ∧ r = { g with locations := l.locations } := by
  unfold pickCarriedLog at h
  cases hf : logs.find? (fun g => g.url == l.url) with
  | some g =>
    rw [hf] at h
    have hr : r = { g with locations := l.locations } := (Option.some.inj h).symm
    have hgl : g.url = l.url := by
      have := List.find?_some hf
      simpa using this
    exact ⟨by rw [hr]; exact hgl, by rw [hr], g, List.mem_of_find?_eq_some hf,
      hgl, hr⟩
  | none =>
    rw [hf] at h
    cases h

/-- `_classify_external_links` as three explicit lists, assuming
pairwise-distinct urls on both sides. -/
theorem classify_lists (links : List ExternalLink)
    (logs : List ExternalLinkLog)
    (h1 : (links.map (fun l => l.url)).Nodup)
    (h2 : (logs.map (fun g => g.url)).Nodup) :
    classifyExternalLinks links logs =
      ⟨links.filterMap (pickNewLink logs),
       links.filterMap (pickCarriedLog logs),
       logs.filter (fun g => links.all (fun l => !(l.url == g.url)))⟩ := by
  unfold classifyExternalLinks
  rw [classifyPairs_eq links logs h1 h2, classify_foldl]
  rw [List.filterMap_append, List.filterMap_append, List.filterMap_append]
  rw [List.map_map, List.filterMap_map, List.filterMap_map, List.filterMap_map,
    List.filterMap_map, List.filterMap_map, List.filterMap_map]
  have hnewA : links.filterMap
      (pickNew ∘ overlayUpdate logs ∘ fun l =>
        (l.url, ({ link := some l, log := none } : LinkLogPair))) =
      links.filterMap (pickNewLink logs) := by
    refine List.filterMap_congr ?_
    intro l _
    show pickNew (overlayUpdate logs
      (l.url, ({ link := some l, log := none } : LinkLogPair))) =
      pickNewLink logs l
    cases hf : logs.find? (fun g => g.url == l.url) with
    | some g =>
      have h3 : overlayUpdate logs
          (l.url, ({ link := some l, log := none } : LinkLogPair)) =
          (l.url, { link := some l, log := some g }) := overlayUpdate_some hf
      rw [h3]
      unfold pickNewLink
      rw [hf]
      rfl
    | none =>
      have h3 : overlayUpdate logs
          (l.url, ({ link := some l, log := none } : LinkLogPair)) =
          (l.url, ({ link := some l, log := none } : LinkLogPair)) :=
        overlayUpdate_none hf
      rw [h3]
      unfold pickNewLink
      rw [hf]
      rfl
  have hcarA : links.filterMap
      (pickCarried ∘ overlayUpdate logs ∘ fun l =>
        (l.url, ({ link := some l, log := none } : LinkLogPair))) =
      links.filterMap (pickCarriedLog logs) := by
    refine List.filterMap_congr ?_
    intro l _
    show pickCarried (overlayUpdate logs
      (l.url, ({ link := some l, log := none } : LinkLogPair))) =
      pickCarriedLog logs l
    cases hf : logs.find? (fun g => g.url == l.url) with
    | some g =>
      have h3 : overlayUpdate logs
          (l.url, ({ link := some l, log := none } : LinkLogPair)) =
          (l.url, { link := some l, log := some g }) := overlayUpdate_some hf
      rw [h3]
      unfold pickCarriedLog
      rw [hf]
      rfl
    | none =>
      have h3 : overlayUpdate logs
          (l.url, ({ link := some l, log := none } : LinkLogPair)) =
          (l.url, ({ link := some l, log := none } : LinkLogPair)) :=
        overlayUpdate_none hf
      rw [h3]
      unfold pickCarriedLog
      rw [hf]
      rfl
  have hdelA : links.filterMap
      (pickDeleted ∘ overlayUpdate logs ∘ fun l =>
        (l.url, ({ link := some l, log := none } : LinkLogPair))) = [] := by
    rw [List.filterMap_eq_nil_iff]
    intro l _
    show pickDeleted (overlayUpdate logs
      (l.url, ({ link := some l, log := none } : LinkLogPair))) = none
    cases hf : logs.find? (fun g => g.url == l.url) with
    | some g =>
      rw [overlayUpdate_some hf]
      rfl
    | none =>
      rw [overlayUpdate_none hf]
      rfl
  have hnewB : (logs.filter
      (fun g => links.all (fun l => !(l.url == g.url)))).filterMap
        (pickNew ∘ fun g =>
          ((g.url, ({ link := none, log := some g } : LinkLogPair)) :
            String × LinkLogPair)) = [] := by
    rw [List.filterMap_eq_nil_iff]
    intro g _
    rfl
  have hcarB : (logs.filter
      (fun g => links.all (fun l => !(l.url == g.url)))).filterMap
        (pickCarried ∘ fun g =>
          ((g.url, ({ link := none, log := some g } : LinkLogPair)) :
            String × LinkLogPair)) = [] := by
    rw [List.filterMap_eq_nil_iff]
    intro g _
    rfl
  have hdelB : (logs.filter
      (fun g => links.all (fun l => !(l.url == g.url)))).filterMap
        (pickDeleted ∘ fun g =>
          ((g.url, ({ link := none, log := some g } : LinkLogPair)) :
            String × LinkLogPair)) =
      logs.filter (fun g => links.all (fun l => !(l.url == g.url))) := by
    rw [show (pickDeleted ∘ fun g : ExternalLinkLog =>
      ((g.url, ({ link := none, log := some g } : LinkLogPair)) :
        String × LinkLogPair)) = some from ?_]
    · exact List.filterMap_some _
    · funext g
      rfl
  rw [hnewA, hcarA, hdelA, hnewB, hcarB, hdelB]
  simp

/-- With pairwise-distinct urls, `find?` locates the unique log of a url. -/
theorem find?_log_of_mem (logs : List ExternalLinkLog) (u : String)
    (g : ExternalLinkLog) (hg : g ∈ logs) (hu : g.url = u)
    (h2 : (logs.map (fun g => g.url)).Nodup) :
    logs.find? (fun g' => g'.url == u) = some g := by
  induction logs with
  | nil => cases hg
  | cons a as ih =>
    rw [List.map_cons, List.nodup_cons] at h2
    rcases List.mem_cons.mp hg with hg' | hg'
    · subst hg'
      rw [List.find?_cons]
      have ht : (g.url == u) = true := by simp [hu]
      rw [ht]
    · have hane : ¬a.url = u := by
        intro hc
        have hm : g.url ∈ as.map (fun g => g.url) := List.mem_map_of_mem _ hg'
        rw [hu, ← hc] at hm
        exact h2.1 hm
      rw [List.find?_cons]
      have hf : (a.url == u) = false := by simp [hane]
      rw [hf]
      exact ih hg' h2.2

/-- With pairwise-distinct urls, filtering `links` by one url gives a
singleton. -/
theorem filter_url_singleton (links : List ExternalLink) (l : ExternalLink)
    (hl : l ∈ links) (h1 : (links.map (fun l => l.url)).Nodup) :
    links.filter (fun x => x.url == l.url) = [l] := by
  induction links with
  | nil => cases hl
  | cons a as ih =>
    rw [List.map_cons, List.nodup_cons] at h1
    rcases List.mem_cons.mp hl with hl' | hl'
    · subst hl'
      rw [List.filter_cons]
      have ht : (l.url == l.url) = true := by simp
      rw [ht, if_pos rfl]
      have hnil : as.filter (fun x => x.url == l.url) = [] := by
        rw [List.filter_eq_nil_iff]
        intro x hx
        have hxne : ¬x.url = l.url := by
          intro hc
          have hm : x.url ∈ as.map (fun l => l.url) := List.mem_map_of_mem _ hx
          rw [hc] at hm
          exact h1.1 hm
        simp [hxne]
      rw [hnil]
    · have hane : ¬a.url = l.url := by
        intro hc
        have hm : l.url ∈ as.map (fun l => l.url) := List.mem_map_of_mem _ hl'
        rw [← hc] at hm
        exact h1.1 hm
      rw [List.filter_cons]
      have hf : (a.url == l.url) = false := by simp [hane]
      rw [hf]
      simp only [Bool.false_eq_true, if_false]
      exact ih hl' h1.2

/-- `filter` by url commutes with the carried-record `filterMap`, because a
carried record keeps its link's url. -/
theorem filterMap_carried_filter_url (links : List ExternalLink)
    (logs : List ExternalLinkLog) (u : String) :
    (links.filterMap (pickCarriedLog logs)).filter (fun r => r.url == u) =
      (links.filter (fun l => l.url == u)).filterMap (pickCarriedLog logs) := by
  induction links with
  | nil => rfl
  | cons l ls ih =>
    rw [List.filterMap_cons, List.filter_cons]
    cases hp : pickCarriedLog logs l with
    | none =>
      cases hu : (l.url == u) with
      | true =>
        rw [if_pos rfl, List.filterMap_cons, hp]
        exact ih
      | false =>
        rw [if_neg (by simp : ¬(false = true))]
        exact ih
    | some r =>
      have hru : r.url = l.url := (pickCarriedLog_some hp).1
      rw [List.filter_cons]
      cases hu : (l.url == u) with
      | true =>
        have hru' : (r.url == u) = true := by
          rw [hru]
          exact hu
        rw [hru', if_pos rfl, if_pos rfl, List.filterMap_cons, hp, ih]
      | false =>
        have hru' : (r.url == u) = false := by
          rw [hru]
          exact hu
        rw [hru', if_neg (by simp : ¬(false = true)),
          if_neg (by simp : ¬(false = true)), ih]

/-- Claim C3: for `_classify_external_links` with pairwise-distinct urls in
each input: a url present only in `links` contributes its link to
`new_links`; a url present in both contributes exactly one carried record
keeping the previous record's `response`/`is_saved` but taking the current
link's `locations`; a url present only in `previous_logs` contributes the
previous record to `deleted_links`; no url appears in more than one output. -/
theorem classifyExternalLinks_classification (links : List ExternalLink)
    (previous_logs : List ExternalLinkLog)
    (h1 : (links.map (fun l => l.url)).Nodup)
    (h2 : (previous_logs.map (fun g => g.url)).Nodup) :
    (∀ l ∈ links, (∀ g ∈ previous_logs, g.url ≠ l.url) →
      l ∈ (classifyExternalLinks links previous_logs).new_links) ∧
    (∀ l ∈ links, ∀ g ∈ previous_logs, g.url = l.url →
      (classifyExternalLinks links previous_logs).logs.filter
          (fun r => r.url == l.url) =
        [{ g with locations := l.locations }]) ∧
    (∀ g ∈ previous_logs, (∀ l ∈ links, l.url ≠ g.url) →
      g ∈ (classifyExternalLinks links previous_logs).deleted_links) ∧
    (∀ u : String,
      ¬((∃ l ∈ (classifyExternalLinks links previous_logs).new_links,
          l.url = u) ∧
        ∃ r ∈ (classifyExternalLinks links previous_logs).logs, r.url = u) ∧
      ¬((∃ l ∈ (classifyExternalLinks links previous_logs).new_links,
          l.url = u) ∧
        ∃ r ∈ (classifyExternalLinks links previous_logs).deleted_links,
          r.url = u) ∧
      ¬((∃ r ∈ (classifyExternalLinks links previous_logs).logs, r.url = u) ∧
        ∃ r ∈ (classifyExternalLinks links previous_logs).deleted_links,
          r.url = u)) := by
  rw [classify_lists links previous_logs h1 h2]
  refine ⟨?_, ?_, ?_, ?_⟩
  · intro l hl hno
    rw [List.mem_filterMap]
    refine ⟨l, hl, ?_⟩
    unfold pickNewLink
    have hf : previous_logs.find? (fun g => g.url == l.url) = none := by
      rw [List.find?_eq_none]
      intro g hg
      simp [hno g hg]
    rw [hf]
  · intro l hl g hg hgu
    show (links.filterMap (pickCarriedLog previous_logs)).filter
        (fun r => r.url == l.url) = _
    rw [filterMap_carried_filter_url, filter_url_singleton links l hl h1,
      List.filterMap_cons, List.filterMap_nil]
    have hp : pickCarriedLog previous_logs l =
        some { g with locations := l.locations } := by
      unfold pickCarriedLog
      rw [find?_log_of_mem previous_logs l.url g hg hgu h2]
    rw [hp]
  · intro g hg hno
    rw [List.mem_filter]
    refine ⟨hg, ?_⟩
    rw [List.all_eq_true]
    intro l hl
    simp [hno l hl]
  · intro u
    refine ⟨?_, ?_, ?_⟩
    · rintro ⟨⟨l, hl, hlu⟩, r, hr, hru⟩
      rcases List.mem_filterMap.mp hl with ⟨x, hx, hpx⟩
      rcases pickNewLink_some hpx with ⟨hxl, hxnone⟩
      subst hxl
      rcases List.mem_filterMap.mp hr with ⟨y, hy, hpy⟩
      rcases pickCarriedLog_some hpy with ⟨hyu, _, g, hglog, hgu, _⟩
      have hxy : l.url = y.url := by
        rw [hlu, ← hru, hyu]
      have hxyeq : l = y := by
        have h3 := filter_url_singleton links l hx h1
        have hy' : y ∈ links.filter (fun x => x.url == l.url) :=
          List.mem_filter.mpr ⟨hy, by simp [hxy.symm]⟩
        rw [h3] at hy'
        exact (List.mem_singleton.mp hy').symm
      rw [← hxyeq] at hgu
      have hcontra : previous_logs.find? (fun g' => g'.url == l.url) = some g :=
        find?_log_of_mem previous_logs l.url g hglog hgu h2
      rw [hxnone] at hcontra
      cases hcontra
    · rintro ⟨⟨l, hl, hlu⟩, r, hr, hru⟩
      rcases List.mem_filterMap.mp hl with ⟨x, hx, hpx⟩
      rcases pickNewLink_some hpx with ⟨hxl, _⟩
      subst hxl
      rcases List.mem_filter.mp hr with ⟨_, hall⟩
      have h3 := List.all_eq_true.mp hall l hx
      have : ¬l.url = r.url := by simpa using h3
      exact this (by rw [hlu, hru])
    · rintro ⟨⟨r, hr, hru⟩, s, hs, hsu⟩
      rcases List.mem_filterMap.mp hr with ⟨y, hy, hpy⟩
      rcases pickCarriedLog_some hpy with ⟨hyu, _, _⟩
      rcases List.mem_filter.mp hs with ⟨_, hall⟩
      have h3 := List.all_eq_true.mp hall y hy
      have : ¬y.url = s.url := by simpa using h3
      exact this (by rw [← hyu, hru, hsu])

/-- Witness for C3 at concrete inputs: url `u1` only current, `u2` in both
(with changed locations), `u3` only previous. -/
theorem classifyExternalLinks_classification_witness :
    (⟨"u1", []⟩ : ExternalLink) ∈
        (classifyExternalLinks
          [⟨"u1", []⟩, ⟨"u2", [⟨"t", 3⟩]⟩]
          [⟨"u2", [⟨"t", 0⟩], 7, LinkResponse.excluded, false⟩,
           ⟨"u3", [], 8, LinkResponse.excluded, false⟩]).new_links ∧
      (classifyExternalLinks
          [⟨"u1", []⟩, ⟨"u2", [⟨"t", 3⟩]⟩]
          [⟨"u2", [⟨"t", 0⟩], 7, LinkResponse.excluded, false⟩,
           ⟨"u3", [], 8, LinkResponse.excluded, false⟩]).logs.filter
        (fun r => r.url == "u2") =
        [⟨"u2", [⟨"t", 3⟩], 7, LinkResponse.excluded, false⟩] ∧
      (⟨"u3", [], 8, LinkResponse.excluded, false⟩ : ExternalLinkLog) ∈
        (classifyExternalLinks
          [⟨"u1", []⟩, ⟨"u2", [⟨"t", 3⟩]⟩]
          [⟨"u2", [⟨"t", 0⟩], 7, LinkResponse.excluded, false⟩,
           ⟨"u3", [], 8, LinkResponse.excluded, false⟩]).deleted_links := by
  have h := classifyExternalLinks_classification
    [⟨"u1", []⟩, ⟨"u2", [⟨"t", 3⟩]⟩]
    [⟨"u2", [⟨"t", 0⟩], 7, LinkResponse.excluded, false⟩,
     ⟨"u3", [], 8, LinkResponse.excluded, false⟩]
    (by decide) (by decide)
  refine ⟨?_, ?_, ?_⟩
  · exact h.1 ⟨"u1", []⟩ (by decide) (by decide)
  · exact h.2.1 ⟨"u2", [⟨"t", 3⟩]⟩ (by decide)
      ⟨"u2", [⟨"t", 0⟩], 7, LinkResponse.excluded, false⟩ (by decide) (by decide)
  · exact h.2.2.1 ⟨"u3", [], 8, LinkResponse.excluded, false⟩ (by decide)
      (by decide)

/-! ## Bounded fetch pipeline (`_request`, `_request_external_links`) -/

/-- Outcome of `session.get(url)` at the network boundary: a response with
status code and `content-type` header, or a raised `asyncio.TimeoutError` /
`aiohttp.ClientError` (class name + message). -/
inductive RemoteResult where
  | response (status_code : Int) (content_type : Option String)
  | failure (error_type message : String)
deriving DecidableEq

/-- `_RequestConfig`: archive content-type patterns and url exclusion
patterns, plus the `re.match` oracle (pattern, text) kept abstract. -/
structure RequestConfig where
  content_types : List String
  excluded_urls : List String
  rmatch : String → String → Bool

/-- Fuel-bounded worker for `stripSchemes`; every step consumes one unit of
fuel and at least one character, so `length + 1` fuel always suffices and the
zero-fuel arm is never reached.  (The fuel makes the recursion structural, so
the function reduces inside the kernel.) -/
def stripSchemesAux : Nat → List Char → List Char
  | 0, l => l
  | _ + 1, [] => []
  | n + 1, c :: cs =>
    if ("https://".toList).isPrefixOf (c :: cs) then
      stripSchemesAux n (cs.drop 7)
    else if ("http://".toList).isPrefixOf (c :: cs) then
      stripSchemesAux n (cs.drop 6)
    else c :: stripSchemesAux n cs

/-- `re.sub(r"https?://", "", url)` on the character list: every occurrence
of `https://` or `http://` is removed, scanning left to right. -/
def stripSchemes (l : List Char) : List Char :=
  stripSchemesAux (l.length + 1) l

/-- `_LinksDirectory.file_path`: the links directory joined with the
scheme-stripped url. -/
def filePath (dir : String) (url : String) : String :=
  dir ++ "/" ++ String.mk (stripSchemes url.data)

/-- `_LinksDirectory.file_list_path`: `list.json` in the links directory. -/
def listJsonPath (dir : String) : String := dir ++ "/list.json"

/-- `_LinksDirectory.gitattributes_path`. -/
def gitattributesPath (dir : String) : String := dir ++ "/.gitattributes"

/-- The content type matches at least one configured archive pattern
(`None` content types never match). -/
def contentTypeMatches (cfg : RequestConfig) (ct : Option String) : Bool :=
  match ct with
  | some c => cfg.content_types.any (fun pat => cfg.rmatch pat c)
  | none => false

/-- Result of one `_request` coroutine: the produced log, the archive file
written (if any), and the number of network GETs issued. -/
structure RequestOutcome where
  log : ExternalLinkLog
  written : Option String
  requests : Nat
deriving DecidableEq

/-- `_request` (`_external_link.py` lines 594-658): exclusion check first
(no network call, `access_timestamp=0`); otherwise one GET; a raised
timeout/transport error becomes a `RequestError` record; a response is
recorded and its body saved iff the content type matches. -/
def request (cfg : RequestConfig) (dir : String)
    (remote : String → RemoteResult) (now : Nat) (link : ExternalLink) :
    RequestOutcome :=
  if cfg.excluded_urls.any (fun pat => cfg.rmatch pat link.url) then
    ⟨⟨link.url, link.locations, 0, LinkResponse.excluded, false⟩, none, 0⟩
  else
    match remote link.url with
    | RemoteResult.response status ct =>
      let is_saved := contentTypeMatches cfg ct
      ⟨⟨link.url, link.locations, now, LinkResponse.responseLog ⟨status, ct⟩,
        is_saved⟩,
       if is_saved then some (filePath dir link.url) else none, 1⟩
    | RemoteResult.failure etype msg =>
      ⟨⟨link.url, link.locations, now, LinkResponse.requestError ⟨etype, msg⟩,
        false⟩, none, 1⟩

/-- Aggregate of `asyncio.gather` over `_parallel_request` tasks. -/
structure FetchResult where
  logs : List ExternalLinkLog
  written : Finset String
  requests : Nat
deriving DecidableEq

/-- `_request_external_links` (`_external_link.py` lines 545-584): one task
per link; `asyncio.gather` returns results in input order regardless of
completion order; the semaphore and pacing sleep only affect scheduling. -/
def requestExternalLinks (cfg : RequestConfig) (dir : String)
    (remote : String → RemoteResult) (now : Nat)
    (links : List ExternalLink) : FetchResult :=
  links.foldl (fun acc link =>
    let o := request cfg dir remote now link
    ⟨acc.logs ++ [o.log],
     acc.written ∪ (match o.written with | some p => {p} | none => ∅),
     acc.requests + o.requests⟩) ⟨[], ∅, 0⟩

theorem requestExternalLinks_foldl (cfg : RequestConfig) (dir : String)
    (remote : String → RemoteResult) (now : Nat)
    (links : List ExternalLink) (acc : FetchResult) :
    links.foldl (fun acc link =>
      let o := request cfg dir remote now link
      (⟨acc.logs ++ [o.log],
        acc.written ∪ (match o.written with | some p => {p} | none => ∅),
        acc.requests + o.requests⟩ : FetchResult)) acc =
      ⟨acc.logs ++ links.map (fun l => (request cfg dir remote now l).log),
       acc.written ∪
         (links.filterMap (fun l =>
           (request cfg dir remote now l).written)).toFinset,
       acc.requests +
         (links.map (fun l => (request cfg dir remote now l).requests)).sum⟩ := by
  induction links generalizing acc with
  | nil => simp
  | cons l ls ih =>
    rw [List.foldl_cons]
    dsimp only
    rw [ih]
    simp only [FetchResult.mk.injEq]
    refine ⟨by simp, ?_, by simp [Nat.add_assoc]⟩
    cases hw : (request cfg dir remote now l).written with
    | none =>
      rw [List.filterMap_cons, hw]
      simp [Finset.union_assoc]
    | some p =>
      rw [List.filterMap_cons, hw]
      simp [List.toFinset_cons, Finset.insert_eq, Finset.union_assoc,
        Finset.union_left_comm]

theorem requestExternalLinks_eq (cfg : RequestConfig) (dir : String)
    (remote : String → RemoteResult) (now : Nat) (links : List ExternalLink) :
    requestExternalLinks cfg dir remote now links =
      ⟨links.map (fun l => (request cfg dir remote now l).log),
       (links.filterMap (fun l =>
         (request cfg dir remote now l).written)).toFinset,
       (links.map (fun l => (request cfg dir remote now l).requests)).sum⟩ := by
  unfold requestExternalLinks
  rw [requestExternalLinks_foldl]
  simp

/-- Lexicographic comparison of char lists (Python string comparison by code
points), structurally recursive so it evaluates inside the kernel. -/
def charsLe : List Char → List Char → Bool
  | [], _ => true
  | _ :: _, [] => false
  | a :: as, b :: bs => if a = b then charsLe as bs else decide (a < b)

/-- Sort order used when persisting logs: by url. -/
def logLe (a b : ExternalLinkLog) : Prop := charsLe a.url.data b.url.data = true

instance : DecidableRel logLe :=
  fun a b => inferInstanceAs (Decidable (charsLe a.url.data b.url.data = true))

def sortLogsByUrl (logs : List ExternalLinkLog) : List ExternalLinkLog :=
  List.insertionSort logLe logs

theorem sortLogsByUrl_perm (logs : List ExternalLinkLog) :
    List.Perm (sortLogsByUrl logs) logs :=
  List.perm_insertionSort logLe logs

/-- `_request_logs` (`_external_link.py` lines 233-263) minus the disk side
effects: classify, shuffle the new links, fetch them, merge in the carried
records, sort by url. -/
def requestLogs (cfg : RequestConfig) (dir : String)
    (remote : String → RemoteResult) (now : Nat)
    (shuffle : List ExternalLink → List ExternalLink)
    (links : List ExternalLink) (previous_logs : List ExternalLinkLog) :
    FetchResult :=
  let classified := classifyExternalLinks links previous_logs
  let fr := requestExternalLinks cfg dir remote now (shuffle classified.new_links)
  ⟨sortLogsByUrl (fr.logs ++ classified.logs), fr.written, fr.requests⟩

/-- Every carried record produced by classification takes its `response`,
`is_saved` and `url` from some previous log (no distinctness needed). -/
theorem mem_classify_logs (links : List ExternalLink)
    (previous_logs : List ExternalLinkLog) :
    ∀ r ∈ (classifyExternalLinks links previous_logs).logs,
      ∃ g ∈ previous_logs, r.response = g.response ∧
        r.is_saved = g.is_saved ∧ r.url = g.url := by
  have hdict : ∀ q ∈ dictOf (fun l : ExternalLink => l.url)
      (fun l => ({ link := some l } : LinkLogPair)) links, q.2.log = none := by
    unfold dictOf
    have hgen : ∀ (ls : List ExternalLink) (acc : List (String × LinkLogPair)),
        (∀ q ∈ acc, q.2.log = none) →
        ∀ q ∈ ls.foldl (dictInsert (fun l : ExternalLink => l.url)
          (fun l => ({ link := some l } : LinkLogPair))) acc, q.2.log = none := by
      intro ls
      induction ls with
      | nil =>
        intro acc hacc q hq
        exact hacc q hq
      | cons a as ih =>
        intro acc hacc q hq
        rw [List.foldl_cons] at hq
        refine ih _ ?_ q hq
        intro q' hq'
        unfold dictInsert at hq'
        by_cases hmem : (acc.any fun q => q.1 == a.url) = true
        · rw [if_pos hmem] at hq'
          rcases List.mem_map.mp hq' with ⟨q₀, hq₀, hq₀'⟩
          by_cases hk : (q₀.1 == a.url) = true
          · rw [if_pos hk] at hq₀'
            rw [← hq₀']
          · rw [if_neg hk] at hq₀'
            rw [← hq₀']
            exact hacc q₀ hq₀
        · rw [if_neg hmem] at hq'
          rcases List.mem_append.mp hq' with h | h
          · exact hacc _ h
          · have hq2 : q' = (a.url, ({ link := some a } : LinkLogPair)) := by
              simpa using h
            rw [hq2]
    intro q hq
    exact hgen links [] (by intro q hq; cases hq) q hq
  have hoverlay : ∀ (gs : List ExternalLinkLog)
      (acc : List (String × LinkLogPair)),
      ∀ q ∈ gs.foldl overlayLog acc, ∀ g, q.2.log = some g →
        g ∈ gs ∨ ∃ q₀ ∈ acc, q₀.2.log = some g := by
    intro gs
    induction gs with
    | nil =>
      intro acc q hq g hg
      exact Or.inr ⟨q, hq, hg⟩
    | cons gl gls ih =>
      intro acc q hq g hg
      rw [List.foldl_cons] at hq
      rcases ih _ q hq g hg with h | ⟨q₀, hq₀, hq₀'⟩
      · exact Or.inl (List.mem_cons_of_mem _ h)
      · unfold overlayLog at hq₀
        by_cases hmem : (acc.any fun q => q.1 == gl.url) = true
        · rw [if_pos hmem] at hq₀
          rcases List.mem_map.mp hq₀ with ⟨q₁, hq₁, hq₁'⟩
          by_cases hk : (q₁.1 == gl.url) = true
          · rw [if_pos hk] at hq₁'
            rw [← hq₁'] at hq₀'
            have : g = gl := by
              have h2 : some gl = some g := hq₀'
              exact (Option.some.inj h2).symm
            rw [this]
            exact Or.inl (List.mem_cons_self _ _)
          · rw [if_neg hk] at hq₁'
            rw [← hq₁'] at hq₀'
            exact Or.inr ⟨q₁, hq₁, hq₀'⟩
        · rw [if_neg hmem] at hq₀
          rcases List.mem_append.mp hq₀ with h | h
          · exact Or.inr ⟨q₀, h, hq₀'⟩
          · have hq2 : q₀ = (gl.url, ({ log := some gl } : LinkLogPair)) := by
              simpa using h
            rw [hq2] at hq₀'
            have : gl = g := Option.some.inj hq₀'
            rw [← this]
            exact Or.inl (List.mem_cons_self _ _)
  intro r hr
  unfold classifyExternalLinks at hr
  rw [classify_foldl] at hr
  simp only [List.nil_append] at hr
  rcases List.mem_filterMap.mp hr with ⟨q, hq, hpick⟩
  unfold pickCarried at hpick
  rcases hlog : q.2.log with _ | g
  · rw [hlog] at hpick
    rcases hlink : q.2.link with _ | l
    · rw [hlink] at hpick
      cases hpick
    · rw [hlink] at hpick
      cases hpick
  · rw [hlog] at hpick
    rcases hlink : q.2.link with _ | l
    · rw [hlink] at hpick
      cases hpick
    · rw [hlink] at hpick
      have hreq : r = { g with locations := l.locations } :=
        (Option.some.inj hpick).symm
      unfold classifyPairs at hq
      rcases hoverlay previous_logs _ q hq g hlog with h | ⟨q₀, hq₀, hq₀'⟩
      · exact ⟨g, h, by rw [hreq], by rw [hreq], by rw [hreq]⟩
      · have := hdict q₀ hq₀
        rw [this] at hq₀'
        cases hq₀'

/-- The invariant of claim C5 for one record. -/
def SavedInvariant (cfg : RequestConfig) (log : ExternalLinkLog) : Prop :=
  log.is_saved = true →
    ∃ rl : ResponseLog, log.response = LinkResponse.responseLog rl ∧
      ∃ c, rl.content_type = some c ∧
        cfg.content_types.any (fun pat => cfg.rmatch pat c) = true

theorem request_savedInvariant (cfg : RequestConfig) (dir : String)
    (remote : String → RemoteResult) (now : Nat) (link : ExternalLink) :
    SavedInvariant cfg (request cfg dir remote now link).log := by
  unfold request SavedInvariant
  by_cases hexc : (cfg.excluded_urls.any fun pat => cfg.rmatch pat link.url) = true
  · rw [if_pos hexc]
    intro h
    cases h
  · rw [if_neg hexc]
    cases hrem : remote link.url with
    | response status ct =>
      intro hsaved
      refine ⟨⟨status, ct⟩, rfl, ?_⟩
      have hct : contentTypeMatches cfg ct = true := hsaved
      unfold contentTypeMatches at hct
      cases ct with
      | none => cases hct
      | some c => exact ⟨c, rfl, hct⟩
    | failure etype msg =>
      intro h
      cases h

/-- Claim C5: every record produced by one `_request_logs` run — freshly
fetched or carried — satisfies `is_saved ⇒ response is a Success whose
content type matched a configured archive pattern`, provided the carried-in
previous records already satisfied it; in particular Excluded and Error
records in the output always have `is_saved = false`. -/
theorem requestLogs_saved_invariant (cfg : RequestConfig) (dir : String)
    (remote : String → RemoteResult) (now : Nat)
    (shuffle : List ExternalLink → List ExternalLink)
    (links : List ExternalLink) (previous_logs : List ExternalLinkLog)
    (hprev : ∀ g ∈ previous_logs, SavedInvariant cfg g) :
    ∀ log ∈ (requestLogs cfg dir remote now shuffle links previous_logs).logs,
      SavedInvariant cfg log ∧
      ((log.response = LinkResponse.excluded ∨
        ∃ e, log.response = LinkResponse.requestError e) →
        log.is_saved = false) := by
  have hmain : ∀ log ∈ (requestLogs cfg dir remote now shuffle links
      previous_logs).logs, SavedInvariant cfg log := by
    intro log hlog
    unfold requestLogs at hlog
    have hperm := sortLogsByUrl_perm
      ((requestExternalLinks cfg dir remote now
        (shuffle (classifyExternalLinks links previous_logs).new_links)).logs ++
        (classifyExternalLinks links previous_logs).logs)
    rw [hperm.mem_iff] at hlog
    rcases List.mem_append.mp hlog with h | h
    · rw [requestExternalLinks_eq] at h
      rcases List.mem_map.mp h with ⟨l, _, hl⟩
      rw [← hl]
      exact request_savedInvariant cfg dir remote now l
    · rcases mem_classify_logs links previous_logs log h with
        ⟨g, hg, hresp, hsaved, _⟩
      intro hs
      rw [hresp]
      rw [hsaved] at hs
      exact (hprev g hg) hs
  intro log hlog
  refine ⟨hmain log hlog, ?_⟩
  intro hbad
  cases hsv : log.is_saved with
  | false => rfl
  | true =>
    rcases hmain log hlog hsv with ⟨rl, hrl, _⟩
    rcases hbad with h | ⟨e, h⟩
    · rw [h] at hrl
      cases hrl
    · rw [h] at hrl
      cases hrl

/-- Witness for C5: a concrete run whose single link yields a saved record
with a matching Success response. -/
theorem requestLogs_saved_invariant_witness :
    SavedInvariant ⟨["text/html"], [], fun pat s => pat == s⟩
      ⟨"u", [], 5, LinkResponse.responseLog ⟨200, some "text/html"⟩, true⟩ := by
  have h := requestLogs_saved_invariant
    ⟨["text/html"], [], fun pat s => pat == s⟩ "d"
    (fun _ => RemoteResult.response 200 (some "text/html")) 5 id
    [⟨"u", []⟩] [] (by intro g hg; cases hg)
    ⟨"u", [], 5, LinkResponse.responseLog ⟨200, some "text/html"⟩, true⟩
    (by decide)
  exact h.1

/-- Claim C6: the fetch pipeline returns exactly one record per input link,
in input order; a link whose GET raises a timeout or transport error yields
an `Error` record with `is_saved = false` while the run still returns a
record for every other link (the exception is converted to data, never
propagated). -/
theorem requestExternalLinks_per_link (cfg : RequestConfig) (dir : String)
    (remote : String → RemoteResult) (now : Nat) (links : List ExternalLink) :
    (requestExternalLinks cfg dir remote now links).logs =
      links.map (fun l => (request cfg dir remote now l).log) ∧
    (requestExternalLinks cfg dir remote now links).logs.length =
      links.length ∧
    (∀ l : ExternalLink, (request cfg dir remote now l).log.url = l.url) ∧
    (∀ l ∈ links,
      (cfg.excluded_urls.any fun pat => cfg.rmatch pat l.url) = false →
      ∀ etype msg, remote l.url = RemoteResult.failure etype msg →
        (request cfg dir remote now l).log.response =
          LinkResponse.requestError ⟨etype, msg⟩ ∧
        (request cfg dir remote now l).log.is_saved = false) := by
  refine ⟨?_, ?_, ?_, ?_⟩
  · rw [requestExternalLinks_eq]
  · rw [requestExternalLinks_eq]
    exact List.length_map links _
  · intro l
    unfold request
    by_cases hexc : (cfg.excluded_urls.any fun pat => cfg.rmatch pat l.url) = true
    · rw [if_pos hexc]
    · rw [if_neg hexc]
      cases remote l.url with
      | response status ct => rfl
      | failure etype msg => rfl
  · intro l _ hexc etype msg hrem
    unfold request
    rw [if_neg (by rw [hexc]; simp), hrem]
    exact ⟨rfl, rfl⟩

/-- Witness for C6: two links, the first failing with a timeout, the second
succeeding; both still get exactly one record. -/
theorem requestExternalLinks_per_link_witness :
    ((requestExternalLinks ⟨[], [], fun _ _ => false⟩ "d"
        (fun u => if u = "http://bad" then
          RemoteResult.failure "TimeoutError" "timed out"
          else RemoteResult.response 200 none) 9
        [⟨"http://bad", []⟩, ⟨"http://ok", []⟩]).logs.length = 2) ∧
      (request ⟨[], [], fun _ _ => false⟩ "d"
        (fun u => if u = "http://bad" then
          RemoteResult.failure "TimeoutError" "timed out"
          else RemoteResult.response 200 none) 9
        ⟨"http://bad", []⟩).log.response =
        LinkResponse.requestError ⟨"TimeoutError", "timed out"⟩ := by
  have h := requestExternalLinks_per_link ⟨[], [], fun _ _ => false⟩ "d"
    (fun u => if u = "http://bad" then
      RemoteResult.failure "TimeoutError" "timed out"
      else RemoteResult.response 200 none) 9
    [⟨"http://bad", []⟩, ⟨"http://ok", []⟩]
  refine ⟨h.2.1.trans (by decide), ?_⟩
  exact (h.2.2.2 ⟨"http://bad", []⟩ (by decide) (by decide) "TimeoutError"
    "timed out" (by decide)).1

/-! ## Archive reconciler (`save_external_links`) -/

/-- The fields of `ExternalLinkConfig` consumed by the archival run.
`keep_logs = none` models the `"all"` literal.  `rmatch` is the shared
`re.match` oracle. -/
structure ExternalLinkConfig where
  content_types : List String
  excluded_urls : List String
  allways_request_all_links : Bool
  keep_logs : Option Nat
  keep_deleted_links : Bool
  use_git_lfs : Bool
  rmatch : String → String → Bool

/-- `SavedExternalLinksInfo` (`list.json`): active content-type patterns plus
the sorted list of archived urls. -/
structure SavedExternalLinksInfo where
  content_types : List String
  urls : List String
deriving DecidableEq

/-- The filesystem state touched by one archival run: the log directory
(timestamp-keyed log files), the content of `list.json` (absent = `none`),
the set of archived body files, and whether `.gitattributes` exists. -/
structure World where
  logFiles : List (Nat × List ExternalLinkLog)
  savedList : Option SavedExternalLinksInfo
  linkFiles : Finset String
  gitattributes : Bool
deriving DecidableEq

def rcfgOf (cfg : ExternalLinkConfig) : RequestConfig :=
  ⟨cfg.content_types, cfg.excluded_urls, cfg.rmatch⟩

def strLe (a b : String) : Prop := charsLe a.data b.data = true

instance : DecidableRel strLe :=
  fun a b => inferInstanceAs (Decidable (charsLe a.data b.data = true))

def sortStrings (l : List String) : List String :=
  List.insertionSort strLe l

/-- Urls of the records with `is_saved = true`. -/
def savedUrlsOf (logs : List ExternalLinkLog) : List String :=
  logs.filterMap (fun log => if log.is_saved then some log.url else none)

/-- `saved_files` of `_commit_target`:
`{directory.file_path(log.url) for log in logs if log.is_saved}`. -/
def savedFiles (dir : String) (logs : List ExternalLinkLog) : Finset String :=
  ((savedUrlsOf logs).map (filePath dir)).toFinset

/-- `previous_saved_files` of `_commit_target`. -/
def previousSavedFiles (dir : String)
    (previousList : Option SavedExternalLinksInfo) : Finset String :=
  (((previousList.map (fun i => i.urls)).getD []).map (filePath dir)).toFinset

/-- The three path sets computed by `_commit_target`
(`_external_link.py` lines 692-728) before the `CommitTarget` constructor
runs: `added`/`updated`/`deleted` from the saved files and the prior index,
plus the staging of `list.json` and (under git-lfs) `.gitattributes`. -/
def commitTargetSets (cfg : ExternalLinkConfig) (dir : String)
    (logs : List ExternalLinkLog)
    (previousList : Option SavedExternalLinksInfo)
    (listExists gitattrExists : Bool) :
    Finset String × Finset String × Finset String :=
  let saved_files := savedFiles dir logs
  let previous_saved_files := previousSavedFiles dir previousList
  let added := saved_files \ previous_saved_files
  let updated := saved_files ∩ previous_saved_files
  let deleted : Finset String :=
    if cfg.keep_deleted_links then ∅ else previous_saved_files \ saved_files
  let staged :=
    if listExists then (added, insert (listJsonPath dir) updated)
    else (insert (listJsonPath dir) added, updated)
  let added2 :=
    if cfg.use_git_lfs && !gitattrExists then
      insert (gitattributesPath dir) staged.1
    else staged.1
  (added2, staged.2, deleted)

/-- `_commit_target` with its filesystem effects: checks `list.json` and
`.gitattributes` existence, unlinks the `deleted` files (removing empty
directories is invisible in the path-set model), creates `.gitattributes`
when needed, and runs the validating `CommitTarget` constructor. -/
def commitTargetRun (cfg : ExternalLinkConfig) (dir : String)
    (logs : List ExternalLinkLog)
    (previousList : Option SavedExternalLinksInfo) (w : World) :
    Except (Finset String) CommitTarget × World :=
  let s := commitTargetSets cfg dir logs previousList
    w.savedList.isSome w.gitattributes
  (CommitTarget.mk' s.1 s.2.1 s.2.2,
   { w with gitattributes := w.gitattributes || cfg.use_git_lfs,
            linkFiles := w.linkFiles \ s.2.2 })

/-- `_LogDirectory.load`: the log stored for exactly this timestamp. -/
def logLoad (w : World) (ts : Nat) : Option (List ExternalLinkLog) :=
  (w.logFiles.find? (fun e => e.1 == ts)).map (fun e => e.2)

def leTimestamp (a b : Nat × List ExternalLinkLog) : Prop := a.1 ≤ b.1

instance : DecidableRel leTimestamp :=
  fun a b => Nat.decLe a.1 b.1

/-- `_LogDirectory.find_all`: log files sorted old to new. -/
def sortedLogFiles (w : World) : List (Nat × List ExternalLinkLog) :=
  List.insertionSort leTimestamp w.logFiles

/-- `_LogDirectory.load_latest(timestamp=ts)`: the newest log whose
timestamp is strictly below `ts`. -/
def logLoadLatest (w : World) (ts : Nat) : Option (List ExternalLinkLog) :=
  ((sortedLogFiles w).reverse.find? (fun e => decide (e.1 < ts))).map
    (fun e => e.2)

/-- `_LogDirectory.save`: (re)write the log file of this timestamp. -/
def logSave (w : World) (ts : Nat) (logs : List ExternalLinkLog) : World :=
  { w with logFiles := w.logFiles.filter (fun e => !(e.1 == ts)) ++ [(ts, logs)] }

/-- `_LogDirectory.clean(keep)`: delete all but the `keep` newest log
files. -/
def logClean (w : World) (keep : Nat) : World :=
  let targets := (sortedLogFiles w).reverse.drop keep
  { w with logFiles :=
      w.logFiles.filter (fun e => targets.all (fun t => !(t.1 == e.1))) }

/-- `_re_request_targets` (`_external_link.py` lines 672-689): logs whose url
is not yet archived but whose recorded response has a content type matching
the current patterns. -/
def reRequestTargets (cfg : RequestConfig) (logs : List ExternalLinkLog)
    (saved_urls : List String) : List ExternalLink :=
  logs.filterMap (fun log =>
    if saved_urls.contains log.url then none
    else
      match log.response with
      | LinkResponse.responseLog rl =>
        if contentTypeMatches cfg rl.content_type then some log.link else none
      | _ => none)

/-- The request phase of `save_external_links`: either the re-request branch
(a log file for this timestamp already exists and
`allways_request_all_links` is off — note its `_request_logs` result is
discarded and the loaded logs are kept, and no log file is written) or the
fresh branch (classify + fetch + save the log file).  Returns the run's
`logs`, the updated world, and the number of GETs issued. -/
def fetchPhase (cfg : ExternalLinkConfig) (dir : String)
    (remote : String → RemoteResult) (now : Nat)
    (shuffle : List ExternalLink → List ExternalLink)
    (ts : Nat) (backupLinks : List ExternalLink) (w : World) :
    List ExternalLinkLog × World × Nat :=
  let previousLogs :=
    if cfg.allways_request_all_links then []
    else (logLoadLatest w ts).getD []
  match (if cfg.allways_request_all_links then none else logLoad w ts) with
  | some logs0 =>
    let links2 := reRequestTargets (rcfgOf cfg) logs0
      ((w.savedList.map (fun i => i.urls)).getD [])
    let fr := requestLogs (rcfgOf cfg) dir remote now shuffle links2 previousLogs
    (logs0, { w with linkFiles := w.linkFiles ∪ fr.written }, fr.requests)
  | none =>
    let fr := requestLogs (rcfgOf cfg) dir remote now shuffle backupLinks
      previousLogs
    (fr.logs,
     logSave { w with linkFiles := w.linkFiles ∪ fr.written } ts fr.logs,
     fr.requests)

/-- `links_directory.save_file_list`: rewrite `list.json` with the sorted
content types and the sorted urls of the saved records. -/
def listPhase (cfg : ExternalLinkConfig) (logs : List ExternalLinkLog)
    (w : World) : World :=
  { w with
    savedList := some (SavedExternalLinksInfo.mk
      (sortStrings cfg.content_types) (sortStrings (savedUrlsOf logs))) }

/-- Log retention: `if config.keep_logs != "all": log_directory.clean(...)`. -/
def cleanPhase (cfg : ExternalLinkConfig) (w : World) : World :=
  match cfg.keep_logs with
  | none => w
  | some keep => logClean w keep

structure RunResult where
  commit : Except (Finset String) CommitTarget
  world : World
  requests : Nat

/-- `save_external_links` (`_external_link.py` lines 139-213): load the
prior index, run the request phase, rewrite `list.json`, apply log
retention, compute the commit target (with its deletion side effects). -/
def saveExternalLinks (cfg : ExternalLinkConfig) (dir : String)
    (remote : String → RemoteResult) (now : Nat)
    (shuffle : List ExternalLink → List ExternalLink)
    (ts : Nat) (backupLinks : List ExternalLink) (w : World) : RunResult :=
  let branch := fetchPhase cfg dir remote now shuffle ts backupLinks w
  let w3 := cleanPhase cfg (listPhase cfg branch.1 branch.2.1)
  let ct := commitTargetRun cfg dir branch.1 w.savedList w3
  ⟨ct.1, ct.2, branch.2.2⟩

/-! ## Claims C4 and C7 -/

/-- Claim C4: in the `_commit_target` sets, `added` is the saved-file paths
absent from the prior index, `updated` the saved-file paths already present
in it (both modulo the always-staged index file `list.json`), `deleted` the
previously-indexed paths no longer saved and empty whenever
`keep_deleted_links` is set, and `list.json` always lands in `added` or
`updated`.  The side conditions say git-lfs staging is off and that no url
maps onto the `list.json` path itself. -/
theorem commitTarget_step6 (cfg : ExternalLinkConfig) (dir : String)
    (logs : List ExternalLinkLog)
    (previousList : Option SavedExternalLinksInfo)
    (listExists gitattrExists : Bool)
    (hlfs : cfg.use_git_lfs = false)
    (hsep : listJsonPath dir ∉
      savedFiles dir logs ∪ previousSavedFiles dir previousList) :
    (commitTargetSets cfg dir logs previousList listExists gitattrExists).1 \
        {listJsonPath dir} =
      savedFiles dir logs \ previousSavedFiles dir previousList ∧
    (commitTargetSets cfg dir logs previousList listExists gitattrExists).2.1 \
        {listJsonPath dir} =
      savedFiles dir logs ∩ previousSavedFiles dir previousList ∧
    (cfg.keep_deleted_links = true →
      (commitTargetSets cfg dir logs previousList listExists
        gitattrExists).2.2 = ∅) ∧
    (cfg.keep_deleted_links = false →
      (commitTargetSets cfg dir logs previousList listExists
        gitattrExists).2.2 =
        previousSavedFiles dir previousList \ savedFiles dir logs) ∧
    listJsonPath dir ∈
      (commitTargetSets cfg dir logs previousList listExists gitattrExists).1 ∪
        (commitTargetSets cfg dir logs previousList listExists
          gitattrExists).2.1 := by
  have h1 : listJsonPath dir ∉ savedFiles dir logs := fun h =>
    hsep (Finset.mem_union_left _ h)
  have hA : listJsonPath dir ∉
      savedFiles dir logs \ previousSavedFiles dir previousList := fun h =>
    h1 (Finset.mem_sdiff.mp h).1
  have hU : listJsonPath dir ∉
      savedFiles dir logs ∩ previousSavedFiles dir previousList := fun h =>
    h1 (Finset.mem_inter.mp h).1
  unfold commitTargetSets
  rw [hlfs]
  simp only [Bool.false_and, Bool.false_eq_true, if_false]
  cases listExists with
  | false =>
    simp only [Bool.false_eq_true, if_false]
    refine ⟨?_, ?_, ?_, ?_, ?_⟩
    · rw [Finset.insert_sdiff_of_mem _ (Finset.mem_singleton_self _)]
      rw [← Finset.erase_eq]
      exact Finset.erase_eq_of_not_mem hA
    · rw [← Finset.erase_eq]
      exact Finset.erase_eq_of_not_mem hU
    · intro hk
      rw [hk]
      simp
    · intro hk
      rw [hk]
      simp
    · exact Finset.mem_union_left _ (Finset.mem_insert_self _ _)
  | true =>
    simp only [if_true]
    refine ⟨?_, ?_, ?_, ?_, ?_⟩
    · rw [← Finset.erase_eq]
      exact Finset.erase_eq_of_not_mem hA
    · rw [Finset.insert_sdiff_of_mem _ (Finset.mem_singleton_self _)]
      rw [← Finset.erase_eq]
      exact Finset.erase_eq_of_not_mem hU
    · intro hk
      rw [hk]
      simp
    · intro hk
      rw [hk]
      simp
    · exact Finset.mem_union_right _ (Finset.mem_insert_self _ _)

/-- Witness for C4 at a concrete input: one newly saved url, an index
recording a url that is no longer saved, `keep_deleted_links` off. -/
theorem commitTarget_step6_witness :
    (commitTargetSets ⟨[], [], false, none, false, false, fun _ _ => false⟩
        "d" [⟨"https://a", [], 1, LinkResponse.responseLog ⟨200, none⟩, true⟩]
        (some ⟨[], ["https://b"]⟩) true false).1 \ {listJsonPath "d"} =
      savedFiles "d"
          [⟨"https://a", [], 1, LinkResponse.responseLog ⟨200, none⟩, true⟩] \
        previousSavedFiles "d" (some ⟨[], ["https://b"]⟩) ∧
    (commitTargetSets ⟨[], [], false, none, false, false, fun _ _ => false⟩
        "d" [⟨"https://a", [], 1, LinkResponse.responseLog ⟨200, none⟩, true⟩]
        (some ⟨[], ["https://b"]⟩) true false).2.2 =
      previousSavedFiles "d" (some ⟨[], ["https://b"]⟩) \
        savedFiles "d"
          [⟨"https://a", [], 1, LinkResponse.responseLog ⟨200, none⟩, true⟩] ∧
    listJsonPath "d" ∈
      (commitTargetSets ⟨[], [], false, none, false, false, fun _ _ => false⟩
          "d" [⟨"https://a", [], 1, LinkResponse.responseLog ⟨200, none⟩, true⟩]
          (some ⟨[], ["https://b"]⟩) true false).1 ∪
        (commitTargetSets ⟨[], [], false, none, false, false, fun _ _ => false⟩
          "d" [⟨"https://a", [], 1, LinkResponse.responseLog ⟨200, none⟩, true⟩]
          (some ⟨[], ["https://b"]⟩) true false).2.1 := by
  have h := commitTarget_step6
    ⟨[], [], false, none, false, false, fun _ _ => false⟩ "d"
    [⟨"https://a", [], 1, LinkResponse.responseLog ⟨200, none⟩, true⟩]
    (some ⟨[], ["https://b"]⟩) true false rfl (by decide)
  exact ⟨h.1, h.2.2.2.1 rfl, h.2.2.2.2⟩

/-- Claim C7 (amended): a link whose url matches an exclusion pattern gets
the record `Excluded` with `access_timestamp = 0` and `is_saved = false`, no
network call and no file write; and its file path never appears in the
commit target's `added` set *unless* it collides with the path derived from
some saved url or with the staged `list.json` / `.gitattributes` paths
(scheme-stripping can fold distinct urls onto one path). -/
theorem request_excluded_behavior (cfg : RequestConfig) (dir : String)
    (remote : String → RemoteResult) (now : Nat) (link : ExternalLink)
    (hexc : (cfg.excluded_urls.any fun pat => cfg.rmatch pat link.url) = true) :
    request cfg dir remote now link =
      ⟨⟨link.url, link.locations, 0, LinkResponse.excluded, false⟩, none, 0⟩ ∧
    ∀ (ecfg : ExternalLinkConfig) (logs : List ExternalLinkLog)
      (previousList : Option SavedExternalLinksInfo)
      (listExists gitattrExists : Bool),
      filePath dir link.url ∉ savedFiles dir logs →
      filePath dir link.url ≠ listJsonPath dir →
      filePath dir link.url ≠ gitattributesPath dir →
      filePath dir link.url ∉
        (commitTargetSets ecfg dir logs previousList listExists
          gitattrExists).1 := by
  constructor
  · unfold request
    rw [if_pos hexc]
  · intro ecfg logs previousList listExists gitattrExists hsaved hlist hgit hmem
    unfold commitTargetSets at hmem
    dsimp only at hmem
    have hsub : ∀ x ∈ savedFiles dir logs \ previousSavedFiles dir previousList,
        x ∈ savedFiles dir logs := fun x hx => (Finset.mem_sdiff.mp hx).1
    by_cases hlfs : (ecfg.use_git_lfs && !gitattrExists) = true
    · rw [if_pos hlfs] at hmem
      rcases Finset.mem_insert.mp hmem with h | h
      · exact hgit h
      · cases listExists with
        | true =>
          simp only [if_true] at h
          exact hsaved (hsub _ h)
        | false =>
          simp only [Bool.false_eq_true, if_false] at h
          rcases Finset.mem_insert.mp h with h' | h'
          · exact hlist h'
          · exact hsaved (hsub _ h')
    · rw [if_neg hlfs] at hmem
      cases listExists with
      | true =>
        simp only [if_true] at hmem
        exact hsaved (hsub _ hmem)
      | false =>
        simp only [Bool.false_eq_true, if_false] at hmem
        rcases Finset.mem_insert.mp hmem with h' | h'
        · exact hlist h'
        · exact hsaved (hsub _ h')

/-- Witness for the amended C7: a concrete excluded link whose path collides
with nothing. -/
theorem request_excluded_behavior_witness :
    request ⟨[], ["http://x"], fun pat s => pat == s⟩ "d"
        (fun _ => RemoteResult.response 200 none) 9 ⟨"http://x", []⟩ =
      ⟨⟨"http://x", [], 0, LinkResponse.excluded, false⟩, none, 0⟩ ∧
    filePath "d" "http://x" ∉
      (commitTargetSets ⟨[], [], false, none, false, false, fun _ _ => false⟩
        "d" [] none true false).1 := by
  have h := request_excluded_behavior
    ⟨[], ["http://x"], fun pat s => pat == s⟩ "d"
    (fun _ => RemoteResult.response 200 none) 9 ⟨"http://x", []⟩ (by decide)
  exact ⟨h.1, h.2 ⟨[], [], false, none, false, false, fun _ _ => false⟩ [] none
    true false (by decide) (by decide) (by decide)⟩

/-- Claim C7, counterexample to the unconditional "never appears in `added`"
clause: the excluded url `http://a` and the saved url `https://a` strip to
the same relative path `a`, so the excluded link's file path does appear in
`added` of the run's commit target (while its own record is still
`Excluded`/unsaved with no network call). -/
theorem request_excluded_in_added_counterexample :
    (request (rcfgOf ⟨["text/html"], ["http://a"], false, none, false, false,
          fun pat s => pat == s⟩) "d"
        (fun _ => RemoteResult.response 200 (some "text/html")) 5
        ⟨"http://a", []⟩) =
      ⟨⟨"http://a", [], 0, LinkResponse.excluded, false⟩, none, 0⟩ ∧
    (saveExternalLinks ⟨["text/html"], ["http://a"], false, none, false, false,
          fun pat s => pat == s⟩ "d"
        (fun _ => RemoteResult.response 200 (some "text/html")) 5 id 100
        [⟨"http://a", []⟩, ⟨"https://a", []⟩]
        ⟨[], none, ∅, false⟩).commit =
      Except.ok ⟨{"d/a"}, {"d/list.json"}, ∅⟩ ∧
    filePath "d" "http://a" ∈ ({"d/a"} : Finset String) := by
  refine ⟨by decide, by decide, by decide⟩

/-! ## Claim C2: re-running the archival step for the same timestamp -/

theorem fetchPhase_fresh (cfg : ExternalLinkConfig) (dir : String)
    (remote : String → RemoteResult) (now : Nat)
    (shuffle : List ExternalLink → List ExternalLink)
    (ts : Nat) (links : List ExternalLink) (w : World)
    (hall : cfg.allways_request_all_links = false)
    (hnone : logLoad w ts = none) :
    fetchPhase cfg dir remote now shuffle ts links w =
      ((requestLogs (rcfgOf cfg) dir remote now shuffle links
          ((logLoadLatest w ts).getD [])).logs,
       logSave { w with linkFiles := w.linkFiles ∪
           (requestLogs (rcfgOf cfg) dir remote now shuffle links
             ((logLoadLatest w ts).getD [])).written } ts
         (requestLogs (rcfgOf cfg) dir remote now shuffle links
           ((logLoadLatest w ts).getD [])).logs,
       (requestLogs (rcfgOf cfg) dir remote now shuffle links
         ((logLoadLatest w ts).getD [])).requests) := by
  unfold fetchPhase
  rw [hall]
  simp only [Bool.false_eq_true, if_false, hnone]

theorem fetchPhase_rerun (cfg : ExternalLinkConfig) (dir : String)
    (remote : String → RemoteResult) (now : Nat)
    (shuffle : List ExternalLink → List ExternalLink)
    (ts : Nat) (links : List ExternalLink) (w : World)
    (logs0 : List ExternalLinkLog)
    (hall : cfg.allways_request_all_links = false)
    (hsome : logLoad w ts = some logs0) :
    fetchPhase cfg dir remote now shuffle ts links w =
      (logs0,
       { w with linkFiles := w.linkFiles ∪
           (requestLogs (rcfgOf cfg) dir remote now shuffle
             (reRequestTargets (rcfgOf cfg) logs0
               ((w.savedList.map (fun i => i.urls)).getD []))
             ((logLoadLatest w ts).getD [])).written },
       (requestLogs (rcfgOf cfg) dir remote now shuffle
         (reRequestTargets (rcfgOf cfg) logs0
           ((w.savedList.map (fun i => i.urls)).getD []))
         ((logLoadLatest w ts).getD [])).requests) := by
  unfold fetchPhase
  rw [hall]
  simp only [Bool.false_eq_true, if_false, hsome]

/-- The invariant characterizing freshly fetched records: `is_saved` is
*equivalent* to having a Success response with matching content type. -/
def FreshInvariant (cfg : RequestConfig) (log : ExternalLinkLog) : Prop :=
  log.is_saved = true ↔
    ∃ rl : ResponseLog, log.response = LinkResponse.responseLog rl ∧
      contentTypeMatches cfg rl.content_type = true

theorem request_freshInvariant (cfg : RequestConfig) (dir : String)
    (remote : String → RemoteResult) (now : Nat) (link : ExternalLink) :
    FreshInvariant cfg (request cfg dir remote now link).log := by
  unfold request FreshInvariant
  by_cases hexc : (cfg.excluded_urls.any fun pat => cfg.rmatch pat link.url) = true
  · rw [if_pos hexc]
    dsimp only
    constructor
    · intro h
      cases h
    · rintro ⟨rl, h, _⟩
      cases h
  · rw [if_neg hexc]
    cases hrem : remote link.url with
    | response status ct =>
      dsimp only
      constructor
      · intro h
        exact ⟨⟨status, ct⟩, rfl, h⟩
      · rintro ⟨rl, hrl, hm⟩
        have hrl2 : (⟨status, ct⟩ : ResponseLog) = rl :=
          LinkResponse.responseLog.inj hrl
        rw [← hrl2] at hm
        exact hm
    | failure etype msg =>
      dsimp only
      constructor
      · intro h
        cases h
      · rintro ⟨rl, h, _⟩
        cases h

/-- With no previous logs, every record of a `_request_logs` run is a fresh
`_request` result. -/
theorem requestLogs_logs_fresh (cfg : RequestConfig) (dir : String)
    (remote : String → RemoteResult) (now : Nat)
    (shuffle : List ExternalLink → List ExternalLink)
    (links : List ExternalLink) :
    ∀ log ∈ (requestLogs cfg dir remote now shuffle links []).logs,
      ∃ l, log = (request cfg dir remote now l).log := by
  intro log hlog
  unfold requestLogs at hlog
  rw [(sortLogsByUrl_perm _).mem_iff] at hlog
  rcases List.mem_append.mp hlog with h | h
  · rw [requestExternalLinks_eq] at h
    rcases List.mem_map.mp h with ⟨l, _, hl⟩
    exact ⟨l, hl.symm⟩
  · rcases mem_classify_logs links [] log h with ⟨g, hg, _⟩
    cases hg

theorem reRequestTargets_nil (cfg : RequestConfig)
    (logs : List ExternalLinkLog) (saved_urls : List String)
    (hfresh : ∀ log ∈ logs, FreshInvariant cfg log)
    (hsaved : ∀ log ∈ logs, log.is_saved = true →
      saved_urls.contains log.url = true) :
    reRequestTargets cfg logs saved_urls = [] := by
  unfold reRequestTargets
  rw [List.filterMap_eq_nil_iff]
  intro log hlog
  by_cases hcont : saved_urls.contains log.url = true
  · rw [if_pos hcont]
  · rw [if_neg hcont]
    cases hresp : log.response with
    | responseLog rl =>
      show (if contentTypeMatches cfg rl.content_type = true then
        some log.link else none) = none
      cases hct : contentTypeMatches cfg rl.content_type with
      | true =>
        exfalso
        exact hcont (hsaved log hlog ((hfresh log hlog).mpr ⟨rl, hresp, hct⟩))
      | false => simp
    | requestError e => rfl
    | excluded => rfl

theorem cleanPhase_single (cfg : ExternalLinkConfig) (w : World)
    (ts : Nat) (logs : List ExternalLinkLog)
    (hw : w.logFiles = [(ts, logs)])
    (hkeep : cfg.keep_logs = none ∨ ∃ k, cfg.keep_logs = some k ∧ 1 ≤ k) :
    cleanPhase cfg w = w := by
  unfold cleanPhase
  rcases hkeep with h | ⟨k, h, hk⟩
  · rw [h]
  · rw [h]
    show logClean w k = w
    unfold logClean sortedLogFiles
    dsimp only
    rw [hw]
    have hs : List.insertionSort leTimestamp [(ts, logs)] = [(ts, logs)] := rfl
    rw [hs]
    have hrev : ([(ts, logs)] : List (Nat × List ExternalLinkLog)).reverse =
        [(ts, logs)] := rfl
    rw [hrev]
    have hdrop : ([(ts, logs)] : List (Nat × List ExternalLinkLog)).drop k =
        [] := List.drop_eq_nil_of_le (by simpa using hk)
    rw [hdrop]
    have hfil : ([(ts, logs)] : List (Nat × List ExternalLinkLog)).filter
        (fun e => ([] : List (Nat × List ExternalLinkLog)).all
          (fun t => !(t.1 == e.1))) = [(ts, logs)] := by
      rw [List.filter_eq_self]
      intro e _
      rfl
    rw [hfil, ← hw]

theorem logLoad_single (ts : Nat) (logs : List ExternalLinkLog) (w : World)
    (hw : w.logFiles = [(ts, logs)]) :
    logLoad w ts = some logs := by
  unfold logLoad
  rw [hw, List.find?_cons]
  have ht : (((ts, logs) : Nat × List ExternalLinkLog).1 == ts) = true := by
    simp
  rw [ht]
  rfl

theorem logLoadLatest_single (ts : Nat) (logs : List ExternalLinkLog)
    (w : World) (hw : w.logFiles = [(ts, logs)]) :
    logLoadLatest w ts = none := by
  unfold logLoadLatest sortedLogFiles
  rw [hw]
  have hs : List.insertionSort leTimestamp [(ts, logs)] = [(ts, logs)] := rfl
  rw [hs]
  have hrev : ([(ts, logs)] : List (Nat × List ExternalLinkLog)).reverse =
      [(ts, logs)] := rfl
  rw [hrev, List.find?_cons]
  have ht : (decide (((ts, logs) : Nat × List ExternalLinkLog).1 < ts)) =
      false := by simp
  rw [ht]
  rfl

theorem commitTargetRun_world_logFiles (cfg : ExternalLinkConfig)
    (dir : String) (logs : List ExternalLinkLog)
    (previousList : Option SavedExternalLinksInfo) (w : World) :
    (commitTargetRun cfg dir logs previousList w).2.logFiles = w.logFiles :=
  rfl

theorem commitTargetRun_world_savedList (cfg : ExternalLinkConfig)
    (dir : String) (logs : List ExternalLinkLog)
    (previousList : Option SavedExternalLinksInfo) (w : World) :
    (commitTargetRun cfg dir logs previousList w).2.savedList = w.savedList :=
  rfl

theorem commitTargetRun_world_gitattributes (cfg : ExternalLinkConfig)
    (dir : String) (logs : List ExternalLinkLog)
    (previousList : Option SavedExternalLinksInfo) (w : World) :
    (commitTargetRun cfg dir logs previousList w).2.gitattributes =
      (w.gitattributes || cfg.use_git_lfs) :=
  rfl

theorem cleanPhase_savedList (cfg : ExternalLinkConfig) (w : World) :
    (cleanPhase cfg w).savedList = w.savedList := by
  unfold cleanPhase
  cases cfg.keep_logs with
  | none => rfl
  | some k => rfl

theorem cleanPhase_gitattributes (cfg : ExternalLinkConfig) (w : World) :
    (cleanPhase cfg w).gitattributes = w.gitattributes := by
  unfold cleanPhase
  cases cfg.keep_logs with
  | none => rfl
  | some k => rfl

theorem cleanPhase_logFiles_single (cfg : ExternalLinkConfig) (w : World)
    (ts : Nat) (logs : List ExternalLinkLog)
    (hw : w.logFiles = [(ts, logs)])
    (hkeep : cfg.keep_logs = none ∨ ∃ k, cfg.keep_logs = some k ∧ 1 ≤ k) :
    (cleanPhase cfg w).logFiles = [(ts, logs)] := by
  rw [cleanPhase_single cfg w ts logs hw hkeep]
  exact hw

theorem listPhase_savedList (cfg : ExternalLinkConfig)
    (logs : List ExternalLinkLog) (w : World) :
    (listPhase cfg logs w).savedList =
      some ⟨sortStrings cfg.content_types, sortStrings (savedUrlsOf logs)⟩ :=
  rfl

theorem listPhase_gitattributes (cfg : ExternalLinkConfig)
    (logs : List ExternalLinkLog) (w : World) :
    (listPhase cfg logs w).gitattributes = w.gitattributes :=
  rfl

theorem fetchPhase_gitattributes (cfg : ExternalLinkConfig) (dir : String)
    (remote : String → RemoteResult) (now : Nat)
    (shuffle : List ExternalLink → List ExternalLink)
    (ts : Nat) (links : List ExternalLink) (w : World) :
    (fetchPhase cfg dir remote now shuffle ts links w).2.1.gitattributes =
      w.gitattributes := by
  unfold fetchPhase
  cases (if cfg.allways_request_all_links then none else logLoad w ts) with
  | some logs0 => rfl
  | none => rfl

/-- The world after a first run on a clean state: one log file for this
timestamp holding the freshly fetched logs, `list.json` recording the saved
urls, `.gitattributes` present iff git-lfs is on. -/
theorem run1_world (cfg : ExternalLinkConfig) (dir : String)
    (remote : String → RemoteResult) (now : Nat)
    (shuffle : List ExternalLink → List ExternalLink)
    (ts : Nat) (links : List ExternalLink)
    (hall : cfg.allways_request_all_links = false)
    (hkeep : cfg.keep_logs = none ∨ ∃ k, cfg.keep_logs = some k ∧ 1 ≤ k) :
    (saveExternalLinks cfg dir remote now shuffle ts links
        ⟨[], none, ∅, false⟩).world.logFiles =
      [(ts, (requestLogs (rcfgOf cfg) dir remote now shuffle links []).logs)] ∧
    (saveExternalLinks cfg dir remote now shuffle ts links
        ⟨[], none, ∅, false⟩).world.savedList =
      some ⟨sortStrings cfg.content_types, sortStrings (savedUrlsOf
        ((requestLogs (rcfgOf cfg) dir remote now shuffle links []).logs))⟩ ∧
    (saveExternalLinks cfg dir remote now shuffle ts links
        ⟨[], none, ∅, false⟩).world.gitattributes = cfg.use_git_lfs := by
  have hb := fetchPhase_fresh cfg dir remote now shuffle ts links
    ⟨[], none, ∅, false⟩ hall rfl
  have hlat : ((logLoadLatest (⟨[], none, ∅, false⟩ : World) ts).getD []) =
      [] := rfl
  rw [hlat] at hb
  have hworld : (saveExternalLinks cfg dir remote now shuffle ts links
      ⟨[], none, ∅, false⟩).world =
      (commitTargetRun cfg dir
        (fetchPhase cfg dir remote now shuffle ts links
          ⟨[], none, ∅, false⟩).1
        (⟨[], none, ∅, false⟩ : World).savedList
        (cleanPhase cfg (listPhase cfg
          (fetchPhase cfg dir remote now shuffle ts links
            ⟨[], none, ∅, false⟩).1
          (fetchPhase cfg dir remote now shuffle ts links
            ⟨[], none, ∅, false⟩).2.1))).2 := rfl
  refine ⟨?_, ?_, ?_⟩
  · rw [hworld, commitTargetRun_world_logFiles, hb]
    exact cleanPhase_logFiles_single cfg _ ts _ rfl hkeep
  · rw [hworld, commitTargetRun_world_savedList, cleanPhase_savedList,
      listPhase_savedList, hb]
  · rw [hworld, commitTargetRun_world_gitattributes, cleanPhase_gitattributes,
      listPhase_gitattributes, fetchPhase_gitattributes]
    exact Bool.false_or _

/-- Claim C2 (amended): re-running `save_external_links` for the same
timestamp from a clean initial state, with unchanged remote content and
configuration, issues zero new network requests, but the resulting
`CommitTarget` is *not* empty: `added` and `deleted` are empty, while
`updated` holds every still-saved file plus the always-staged index file
`list.json`, so `is_empty()` is `false`. -/
theorem saveExternalLinks_rerun (cfg : ExternalLinkConfig) (dir : String)
    (remote : String → RemoteResult) (now1 now2 : Nat)
    (shuffle : List ExternalLink → List ExternalLink)
    (ts : Nat) (links : List ExternalLink)
    (hsh : ∀ l, List.Perm (shuffle l) l)
    (hall : cfg.allways_request_all_links = false)
    (hkeep : cfg.keep_logs = none ∨ ∃ k, cfg.keep_logs = some k ∧ 1 ≤ k) :
    (saveExternalLinks cfg dir remote now2 shuffle ts links
        (saveExternalLinks cfg dir remote now1 shuffle ts links
          ⟨[], none, ∅, false⟩).world).requests = 0 ∧
    ∃ ct, (saveExternalLinks cfg dir remote now2 shuffle ts links
          (saveExternalLinks cfg dir remote now1 shuffle ts links
            ⟨[], none, ∅, false⟩).world).commit = Except.ok ct ∧
      ct.added = ∅ ∧ ct.deleted = ∅ ∧
      ct.updated = savedFiles dir
          ((logLoad (saveExternalLinks cfg dir remote now1 shuffle ts links
            ⟨[], none, ∅, false⟩).world ts).getD []) ∪ {listJsonPath dir} ∧
      ct.is_empty = false := by
  obtain ⟨hlogf, hsavedl, hgit⟩ :=
    run1_world cfg dir remote now1 shuffle ts links hall hkeep
  set w1 := (saveExternalLinks cfg dir remote now1 shuffle ts links
    ⟨[], none, ∅, false⟩).world with hw1
  set logs1 := (requestLogs (rcfgOf cfg) dir remote now1 shuffle links []).logs
    with hl1
  -- run-2 branch
  have hload2 : logLoad w1 ts = some logs1 := logLoad_single ts logs1 w1 hlogf
  have hfresh : ∀ log ∈ logs1, FreshInvariant (rcfgOf cfg) log := by
    intro log hlog
    rcases requestLogs_logs_fresh (rcfgOf cfg) dir remote now1 shuffle links
      log hlog with ⟨l, hl⟩
    rw [hl]
    exact request_freshInvariant (rcfgOf cfg) dir remote now1 l
  have hurls : ((w1.savedList.map (fun i => i.urls)).getD []) =
      sortStrings (savedUrlsOf logs1) := by
    rw [hsavedl]
    rfl
  have hsvd : ∀ log ∈ logs1, log.is_saved = true →
      ((w1.savedList.map (fun i => i.urls)).getD []).contains log.url =
        true := by
    intro log hlog hsv
    rw [hurls]
    have hm : log.url ∈ savedUrlsOf logs1 := by
      unfold savedUrlsOf
      rw [List.mem_filterMap]
      refine ⟨log, hlog, ?_⟩
      rw [hsv]
      simp
    have hm2 : log.url ∈ sortStrings (savedUrlsOf logs1) :=
      (List.perm_insertionSort strLe _).mem_iff.mpr hm
    exact List.elem_eq_true_of_mem hm2
  have hrr : reRequestTargets (rcfgOf cfg) logs1
      ((w1.savedList.map (fun i => i.urls)).getD []) = [] :=
    reRequestTargets_nil (rcfgOf cfg) logs1 _ hfresh hsvd
  have hlat2 : ((logLoadLatest w1 ts).getD []) = [] := by
    rw [logLoadLatest_single ts logs1 w1 hlogf]
    rfl
  have hshuf : shuffle [] = [] := (hsh []).eq_nil
  have hfr2 : requestLogs (rcfgOf cfg) dir remote now2 shuffle [] [] =
      ⟨[], ∅, 0⟩ := by
    unfold requestLogs
    rw [show (classifyExternalLinks [] []) =
      (⟨[], [], []⟩ : ClassifiedExternalLinks) from rfl]
    dsimp only
    rw [hshuf]
    rfl
  have hb2 := fetchPhase_rerun cfg dir remote now2 shuffle ts links w1 logs1
    hall hload2
  rw [hrr, hlat2, hfr2] at hb2
  have hw1eq : ({ w1 with linkFiles := w1.linkFiles ∪
      (⟨[], ∅, 0⟩ : FetchResult).written } : World) = w1 := by
    show ({ w1 with linkFiles := w1.linkFiles ∪ ∅ } : World) = w1
    rw [Finset.union_empty]
  rw [hw1eq] at hb2
  -- persist + clean phases of run 2
  have hlistp : listPhase cfg logs1 w1 = w1 := by
    unfold listPhase
    rw [← hsavedl]
  have hcleanp : cleanPhase cfg w1 = w1 :=
    cleanPhase_single cfg w1 ts logs1 hlogf hkeep
  -- the commit target of run 2
  have hprev : previousSavedFiles dir w1.savedList = savedFiles dir logs1 := by
    rw [hsavedl]
    show ((sortStrings (savedUrlsOf logs1)).map (filePath dir)).toFinset =
      ((savedUrlsOf logs1).map (filePath dir)).toFinset
    exact List.toFinset_eq_of_perm _ _
      ((List.perm_insertionSort strLe (savedUrlsOf logs1)).map (filePath dir))
  have hsets : commitTargetSets cfg dir logs1 w1.savedList
      w1.savedList.isSome w1.gitattributes =
      (∅, insert (listJsonPath dir) (savedFiles dir logs1), ∅) := by
    unfold commitTargetSets
    rw [hprev]
    dsimp only
    rw [Finset.sdiff_self, Finset.inter_self]
    have hExists : w1.savedList.isSome = true := by
      rw [hsavedl]
      rfl
    rw [hExists, hgit]
    simp only [if_true, Bool.and_not_self, Bool.false_eq_true, if_false,
      Finset.sdiff_self, ite_self]
  have hok : CommitTarget.mk' ∅
      (insert (listJsonPath dir) (savedFiles dir logs1)) ∅ =
      Except.ok ⟨∅, insert (listJsonPath dir) (savedFiles dir logs1), ∅⟩ := by
    unfold CommitTarget.mk' CommitTarget.validate
    have he : CommitTarget.validateErrors
        ⟨∅, insert (listJsonPath dir) (savedFiles dir logs1), ∅⟩ = ∅ :=
      (validateErrors_eq_empty_iff _).mpr
        ⟨Finset.empty_inter _, Finset.empty_inter _, Finset.inter_empty _⟩
    dsimp only
    rw [he]
    simp
  constructor
  · show (saveExternalLinks cfg dir remote now2 shuffle ts links w1).requests = 0
    unfold saveExternalLinks
    rw [hb2]
  · refine ⟨⟨∅, insert (listJsonPath dir) (savedFiles dir logs1), ∅⟩, ?_, rfl,
      rfl, ?_, ?_⟩
    · show (saveExternalLinks cfg dir remote now2 shuffle ts links w1).commit =
        _
      unfold saveExternalLinks
      rw [hb2]
      dsimp only
      rw [hlistp, hcleanp]
      unfold commitTargetRun
      dsimp only
      rw [hsets]
      exact hok
    · rw [hload2]
      show insert (listJsonPath dir) (savedFiles dir logs1) =
        savedFiles dir logs1 ∪ {listJsonPath dir}
      rw [Finset.union_comm]
      exact (Finset.insert_eq _ _)
    · unfold CommitTarget.is_empty
      refine decide_eq_false ?_
      rintro ⟨_, h2, _⟩
      exact Finset.insert_ne_empty _ _ h2

/-- Claim C2, counterexample: running the archival step twice for timestamp
100 with no links, unchanged (empty) remote content and unchanged
configuration; the second run issues zero requests but its `CommitTarget`
has `list.json` in `updated`, so `is_empty()` is `false`, not `true`. -/
theorem saveExternalLinks_rerun_counterexample :
    (saveExternalLinks ⟨[], [], false, none, false, false, fun _ _ => false⟩
        "d" (fun _ => RemoteResult.failure "E" "m") 1 id 100 []
        (saveExternalLinks ⟨[], [], false, none, false, false,
            fun _ _ => false⟩
          "d" (fun _ => RemoteResult.failure "E" "m") 0 id 100 []
          ⟨[], none, ∅, false⟩).world).requests = 0 ∧
    (saveExternalLinks ⟨[], [], false, none, false, false, fun _ _ => false⟩
        "d" (fun _ => RemoteResult.failure "E" "m") 1 id 100 []
        (saveExternalLinks ⟨[], [], false, none, false, false,
            fun _ _ => false⟩
          "d" (fun _ => RemoteResult.failure "E" "m") 0 id 100 []
          ⟨[], none, ∅, false⟩).world).commit =
      Except.ok ⟨∅, {listJsonPath "d"}, ∅⟩ ∧
    (⟨∅, {listJsonPath "d"}, ∅⟩ : CommitTarget).is_empty = false := by
  refine ⟨by decide, by decide, by decide⟩

/-- Witness for the amended C2 theorem at concrete inputs. -/
theorem saveExternalLinks_rerun_witness :
    (saveExternalLinks ⟨["text/html"], [], false, some 3, false, false,
        fun pat s => pat == s⟩ "d"
        (fun _ => RemoteResult.response 200 (some "text/html")) 7 id 100
        [⟨"https://a", []⟩]
        (saveExternalLinks ⟨["text/html"], [], false, some 3, false, false,
            fun pat s => pat == s⟩ "d"
          (fun _ => RemoteResult.response 200 (some "text/html")) 3 id 100
          [⟨"https://a", []⟩] ⟨[], none, ∅, false⟩).world).requests = 0 ∧
    ∃ ct, (saveExternalLinks ⟨["text/html"], [], false, some 3, false, false,
            fun pat s => pat == s⟩ "d"
          (fun _ => RemoteResult.response 200 (some "text/html")) 7 id 100
          [⟨"https://a", []⟩]
          (saveExternalLinks ⟨["text/html"], [], false, some 3, false, false,
              fun pat s => pat == s⟩ "d"
            (fun _ => RemoteResult.response 200 (some "text/html")) 3 id 100
            [⟨"https://a", []⟩] ⟨[], none, ∅, false⟩).world).commit =
        Except.ok ct ∧
      ct.added = ∅ ∧ ct.deleted = ∅ ∧
      ct.updated = savedFiles "d"
          ((logLoad (saveExternalLinks ⟨["text/html"], [], false, some 3,
              false, false, fun pat s => pat == s⟩ "d"
            (fun _ => RemoteResult.response 200 (some "text/html")) 3 id 100
            [⟨"https://a", []⟩] ⟨[], none, ∅, false⟩).world 100).getD []) ∪
          {listJsonPath "d"} ∧
      ct.is_empty = false := by
  exact saveExternalLinks_rerun
    ⟨["text/html"], [], false, some 3, false, false, fun pat s => pat == s⟩
    "d" (fun _ => RemoteResult.response 200 (some "text/html")) 3 7 id 100
    [⟨"https://a", []⟩] (fun l => List.Perm.refl l) rfl
    (Or.inr ⟨3, rfl, by decide⟩)

end BackupCosense
